import Mathlib

/-!
Verification of the service-supervision core of `server.py` (MioTTS Cockpit).

The Python source is shallowly embedded as executable Lean definitions:

* `ManagedService` mirrors the runtime object of `class ManagedService`
  (config fields plus the mutable `process` handle and `_state` string).
* `ManagedService.state` mirrors the lazy `state` property (which *mutates*
  `_state` to `"stopped"` when the OS process is observed gone), so it
  returns the read value together with the updated record.
* `ManagedService.start`, `.stop`, `.get_logs` mirror the methods of the
  same names; OS-level nondeterminism (signal delivery races, process exit,
  health-probe responses) is supplied through explicit environment records.
* `ServiceManager` operations (`start_order`, `start_all`, `stop_all`,
  `start_service`) are embedded as state-threading functions that also
  record an event trace (`Ev`), which the temporal claims quantify over.
* `substFlag` / `apply_model_to_services` / `change_model` mirror the
  model-reconfiguration path of the HTTP layer.

Machine states are the Python strings "stopped" / "starting" / "running" /
"error"; errors raised by the Python code become `Option String` /
`Except String` values carrying the exact message the source builds.
-/

/-- Runtime state of one `ManagedService` object (`server.py` lines 59-74).
`process = none` models `self.process is None`; `process = some rc` models a
spawned process object whose `returncode` is `rc` (`none` while alive).
`state_` models the `_state` attribute; `log_open` models `_log_file`. -/
structure ManagedService where
  name : String
  command : List String
  health_url : Option String
  depends_on : List String
  startup_timeout : Nat
  startup_poll_interval : Nat
  process : Option (Option Int)
  state_ : String
  log_open : Bool
deriving Repr, DecidableEq

namespace ManagedService

/-- `self.process is None or self.process.returncode is not None`. -/
def procExited (s : ManagedService) : Bool :=
  match s.process with
  | none => true
  | some rc => rc.isSome

/-- `self.process and self.process.returncode is None` (a live child). -/
def procAlive (s : ManagedService) : Bool :=
  match s.process with
  | some none => true
  | _ => false

/-- The `state` property (lines 76-82): returns `"starting"` unchanged;
otherwise lazily rewrites `_state` to `"stopped"` when the process is gone.
Returns the value read together with the (possibly mutated) object. -/
def state (s : ManagedService) : String × ManagedService :=
  if s.state_ = "starting" then (s.state_, s)
  else if s.procExited then ("stopped", { s with state_ := "stopped" })
  else (s.state_, s)

/-- The successful branch of `start()` (lines 98-110): open the log file,
set state `"starting"`, spawn the child (alive, no exit code yet). -/
def startApply (s : ManagedService) : ManagedService :=
  { s with log_open := true, state_ := "starting", process := some none }

/-- `start()` (lines 94-110): raises `RuntimeError(f"{self.name} is already
running")` when a live process exists, otherwise spawns. -/
def start (s : ManagedService) : Except String ManagedService :=
  if s.procAlive then Except.error (s.name ++ " is already running")
  else Except.ok s.startApply

/-- Environment for one `stop()` call: whether `os.getpgid`/`os.killpg`
raises `ProcessLookupError` at the SIGTERM site, whether
`asyncio.wait_for(process.wait(), timeout=10)` completes in time (and the
exit code it then reports), and whether the SIGKILL site hits
`ProcessLookupError`. -/
structure StopEnv where
  termLookupFails : Bool
  waitCompletes : Bool
  rcAfterWait : Int
  killLookupFails : Bool
deriving Repr, DecidableEq

/-- `stop()` (lines 138-160).  Returns the updated object and the list of
signals actually delivered to the process group. -/
def stop (s : ManagedService) (env : StopEnv) : ManagedService × List String :=
  match s.process with
  | none => ({ s with state_ := "stopped" }, [])
  | some (some _) => ({ s with state_ := "stopped" }, [])
  | some none =>
    let sigs1 : List String := if env.termLookupFails then [] else ["SIGTERM"]
    if env.waitCompletes then
      ({ s with process := some (some env.rcAfterWait), state_ := "stopped",
                log_open := false }, sigs1)
    else
      let sigs2 := sigs1 ++ (if env.killLookupFails then [] else ["SIGKILL"])
      ({ s with state_ := "stopped", log_open := false }, sigs2)

end ManagedService

/-- Python `l[-n:]`: the last `n` elements for `n > 0`. -/
def takeLast {α : Type} (n : Nat) (l : List α) : List α :=
  l.drop (l.length - n)

/-- Python's `filtered[-lines:]` slice: `l[-0:]` is the whole list. -/
def pyTailSlice {α : Type} (n : Nat) (l : List α) : List α :=
  if n = 0 then l else takeLast n l

/-- Does the second character list start with the first? -/
def charsStartWith : List Char → List Char → Bool
  | [], _ => true
  | _ :: _, [] => false
  | a :: p, b :: l => a == b && charsStartWith p l

/-- Does the second character list contain the first as a contiguous run? -/
def charsHave (p : List Char) : List Char → Bool
  | [] => p.isEmpty
  | b :: l => charsStartWith p (b :: l) || charsHave p l

/-- Python's substring test `p in l`. -/
def strContains (l p : String) : Bool :=
  charsHave p.toList l.toList

/-- `get_logs` (lines 179-192), with the log file contents given as
`none` (file does not exist) or `some` list of lines.  `filter_patterns`
is falsy in Python both when it is `None` and when it is the empty list.
`deque(f, maxlen=m)` keeps the last `m` lines; the result is the list of
returned lines (the source joins them into one string). -/
def get_logs (log : Option (List String)) (lines : Nat)
    (filter_patterns : Option (List String)) : List String :=
  match log with
  | none => []
  | some content =>
    match filter_patterns with
    | none => takeLast lines content
    | some pats =>
      if pats.isEmpty then takeLast lines content
      else
        let all_lines := takeLast (lines * 3) content
        let filtered := all_lines.filter
          (fun l => !(pats.any (fun p => strContains l p)))
        pyTailSlice lines filtered

/-- The flag-substitution primitive used by `_apply_model_to_services`
(lines 397-407, 414-419): `cmd.index(flag)` raising `ValueError` is caught
and the substitution silently skipped; the assignment `cmd[idx + 1] = val`
raises an uncaught `IndexError` when `idx + 1` is out of range. -/
def substFlag (cmd : List String) (flag val : String) :
    Except String (List String) :=
  match cmd.indexOf? flag with
  | none => Except.ok cmd
  | some i =>
    if i + 1 < cmd.length then Except.ok (cmd.set (i + 1) val)
    else Except.error "IndexError: list assignment index out of range"

/-- `model_id.split("/")[-1]` (line 409). -/
def lastComponent (s : String) : String :=
  (s.splitOn "/").getLastD s

/-! ## The detailed health-wait loop (`wait_healthy`, lines 112-136) -/

/-- What one iteration of the polling loop observes: the value of
`self.process.returncode` read at the top of the iteration, and the
outcome of the HTTP probe (`none` = the request raised an exception,
`some c` = it returned status code `c`). -/
structure ProbeObs where
  returncode : Option Int
  response : Option Nat
deriving Repr, DecidableEq

/-- Result of `wait_healthy`: the returned boolean, the resulting `_state`,
and how many HTTP probes were issued. -/
structure WHRes where
  ok : Bool
  st : String
  probes : Nat
deriving Repr, DecidableEq

/-- The `while elapsed < self.startup_timeout` loop of `wait_healthy`
(lines 120-133).  `tr k` is what iteration `k` observes; `elapsed` advances
by `interval` per iteration exactly as in the source.  The hypothesis
`0 < interval` reflects a positive configured `startup_poll_interval`
(default 5) and makes the loop provably terminating. -/
def whLoop (tr : Nat → ProbeObs) (timeout interval : Nat)
    (hpos : 0 < interval) (k elapsed : Nat) : WHRes :=
  if hcont : elapsed < timeout then
    let ob := tr k
    match ob.returncode with
    | some _ => ⟨false, "error", k⟩
    | none =>
      match ob.response with
      | some code =>
        if code = 200 then ⟨true, "running", k + 1⟩
        else whLoop tr timeout interval hpos (k + 1) (elapsed + interval)
      | none => whLoop tr timeout interval hpos (k + 1) (elapsed + interval)
  else ⟨false, "error", k⟩
termination_by timeout - elapsed
decreasing_by simp_wf; omega

/-- `wait_healthy` (lines 112-136): with no configured health URL the
service is declared `"running"` after a fixed grace sleep and no probe is
issued; otherwise the polling loop runs. -/
def wait_healthy (svc : ManagedService) (tr : Nat → ProbeObs)
    (hpos : 0 < svc.startup_poll_interval) : WHRes :=
  match svc.health_url with
  | none => ⟨true, "running", 0⟩
  | some _ => whLoop tr svc.startup_timeout svc.startup_poll_interval hpos 0 0

/-! ## ServiceManager (lines 206-285) -/

/-- `self.services`: an insertion-ordered dict, embedded as an association
list (Python dict keys are unique; theorems that need this carry a
`Nodup` hypothesis on the key list). -/
abbrev Mgr := List (String × ManagedService)

/-- `self.services.get(sid)` (first binding of the key). -/
def lookupSvc (m : Mgr) (sid : String) : Option ManagedService :=
  match m with
  | [] => none
  | (k, v) :: rest => if k = sid then some v else lookupSvc rest sid

/-- In-place mutation of the service object bound to `sid`. -/
def updateSvc (m : Mgr) (sid : String) (f : ManagedService → ManagedService) :
    Mgr :=
  m.map (fun e => if e.1 = sid then (e.1, f e.2) else e)

/-- Whole `ServiceManager`: the service dict plus the `_starting` flag. -/
structure ServiceManager where
  services : Mgr
  starting_ : Bool
deriving Repr, DecidableEq

/-- Keys of the service dict, in insertion order. -/
def keys (m : Mgr) : List String := m.map Prod.fst

/-- Every identifier mentioned by the configuration: service ids plus all
declared dependency ids (the DFS can visit any of these). -/
def allIds (m : Mgr) : List String :=
  keys m ++ (m.map (fun e => e.2.depends_on)).flatten

/-- State of the depth-first traversal in `_start_order` (lines 213-230):
the `visited` set and the `order` accumulator. -/
structure VisitSt where
  visited : List String
  order : List String
deriving Repr, DecidableEq

/-- The inner `visit` closure of `_start_order`, with a fuel argument
bounding the recursion depth (each recursive level first adds a fresh id
to `visited`, so depth is bounded by the number of distinct ids; the
top-level caller supplies more fuel than that bound). -/
def visitF (m : Mgr) : Nat → String → VisitSt → VisitSt
  | 0, _, st => st
  | fuel + 1, sid, st =>
    if sid ∈ st.visited then st
    else
      let st1 : VisitSt := ⟨sid :: st.visited, st.order⟩
      let st2 :=
        match lookupSvc m sid with
        | some svc => svc.depends_on.foldl (fun s d => visitF m fuel d s) st1
        | none => st1
      ⟨st2.visited, st2.order ++ [sid]⟩

/-- Fuel that is always sufficient for `visitF`. -/
def startFuel (m : Mgr) : Nat := (allIds m).length + 1

/-- `_start_order` (lines 213-230): depth-first traversal over the whole
service dict in insertion order. -/
def start_order (m : Mgr) : List String :=
  (m.foldl (fun st e => visitF m (startFuel m) e.1 st) ⟨[], []⟩).order

/-- Events observable in an orchestrator run: `svc.start()` spawning `sid`,
`svc.wait_healthy()` on `sid` returning `ok`, and `svc.stop()` on `sid`. -/
inductive Ev where
  | start (sid : String)
  | waitH (sid : String) (ok : Bool)
  | stop (sid : String)
deriving Repr, DecidableEq

/-- Result of an orchestrator operation: the exception it raised (if any,
with the Python message), the service dict after the call (mutations
survive a raised exception), and the event trace. -/
structure RunRes where
  err : Option String
  mgr : Mgr
  evs : List Ev
deriving Repr, DecidableEq

/-- The health outcome the orchestrator observes for one `wait_healthy()`
call, abstracted by an oracle bit `b` for the probe loop's verdict:
services with no health URL always report healthy (lines 113-116). -/
def whOutcome (svc : ManagedService) (b : Bool) : Bool :=
  if svc.health_url.isNone then true else b

/-- The state mutation `wait_healthy` performs for outcome `ok`
(`"running"` on success, `"error"` on failure; lines 115, 122, 127, 135). -/
def whApply (svc : ManagedService) (ok : Bool) : ManagedService :=
  if ok then { svc with state_ := "running" } else { svc with state_ := "error" }

/-- Python `KeyError` from `self.services[sid]`. -/
def keyErrMsg (sid : String) : String := "KeyError: " ++ sid

/-- The `for sid in self._start_order()` loop body of `start_all`
(lines 237-246), iterating the remaining order suffix.  `orc sid` is the
probe-loop verdict oracle for `sid`'s `wait_healthy` call. -/
def startAllGo (orc : String → Bool) : Mgr → List String → RunRes
  | m, [] => ⟨none, m, []⟩
  | m, sid :: rest =>
    match lookupSvc m sid with
    | none => ⟨some (keyErrMsg sid), m, []⟩
    | some svc =>
      let p := svc.state
      let m1 := updateSvc m sid (fun _ => p.2)
      if p.1 = "running" then startAllGo orc m1 rest
      else
        match p.2.start with
        | Except.error e => ⟨some e, m1, []⟩
        | Except.ok svc2 =>
          let m2 := updateSvc m1 sid (fun _ => svc2)
          let ok := whOutcome svc2 (orc sid)
          let m3 := updateSvc m2 sid (fun _ => whApply svc2 ok)
          if ok then
            let r := startAllGo orc m3 rest
            ⟨r.err, r.mgr, Ev.start sid :: Ev.waitH sid ok :: r.evs⟩
          else
            ⟨some (svc2.name ++ " failed to become healthy within "
                     ++ toString svc2.startup_timeout ++ "s"),
             m3, [Ev.start sid, Ev.waitH sid ok]⟩

/-- Result of `start_all`/`start_service` at the manager level. -/
structure SMRes where
  err : Option String
  sm : ServiceManager
  evs : List Ev
deriving Repr, DecidableEq

/-- `start_all` (lines 232-248): single-flight guard on `_starting`
(raising `RuntimeError("Already starting")` leaves the flag untouched),
then the ordered loop; the `finally` block resets the flag. -/
def start_all (orc : String → Bool) (sm : ServiceManager) : SMRes :=
  if sm.starting_ then ⟨some "Already starting", sm, []⟩
  else
    let r := startAllGo orc sm.services (start_order sm.services)
    ⟨r.err, ⟨r.mgr, false⟩, r.evs⟩

/-- The loop of `stop_all` (lines 250-253) over a list of ids. -/
def stopAllGo (env : String → ManagedService.StopEnv) :
    Mgr → List String → RunRes
  | m, [] => ⟨none, m, []⟩
  | m, sid :: rest =>
    match lookupSvc m sid with
    | none => ⟨some (keyErrMsg sid), m, []⟩
    | some svc =>
      let p := svc.stop (env sid)
      let m1 := updateSvc m sid (fun _ => p.1)
      let r := stopAllGo env m1 rest
      ⟨r.err, r.mgr, Ev.stop sid :: r.evs⟩

/-- `stop_all` (lines 250-253): iterate the reversed start order. -/
def stop_all (env : String → ManagedService.StopEnv) (sm : ServiceManager) :
    SMRes :=
  let r := stopAllGo env sm.services (start_order sm.services).reverse
  ⟨r.err, ⟨r.mgr, sm.starting_⟩, r.evs⟩

/-- The dependency loop of `start_service` (lines 259-264): each *direct*
dependency that resolves and is not `"running"` is started and its
`wait_healthy` awaited — with the boolean result discarded. -/
def startDepsGo (orc : String → Bool) : Mgr → List String → RunRes
  | m, [] => ⟨none, m, []⟩
  | m, depId :: rest =>
    match lookupSvc m depId with
    | none => startDepsGo orc m rest
    | some dep =>
      let p := dep.state
      let m1 := updateSvc m depId (fun _ => p.2)
      if p.1 = "running" then startDepsGo orc m1 rest
      else
        match p.2.start with
        | Except.error e => ⟨some e, m1, []⟩
        | Except.ok dep2 =>
          let m2 := updateSvc m1 depId (fun _ => dep2)
          let ok := whOutcome dep2 (orc depId)
          let m3 := updateSvc m2 depId (fun _ => whApply dep2 ok)
          let r := startDepsGo orc m3 rest
          ⟨r.err, r.mgr, Ev.start depId :: Ev.waitH depId ok :: r.evs⟩

/-- `start_service` (lines 255-266): unknown ids raise `KeyError`; then the
direct dependencies are processed; then the requested unit is started and
waited on — its own health result is discarded as well. -/
def start_service (orc : String → Bool) (m : Mgr) (sid : String) : RunRes :=
  match lookupSvc m sid with
  | none => ⟨some ("Unknown service: " ++ sid), m, []⟩
  | some svc =>
    let r := startDepsGo orc m svc.depends_on
    match r.err with
    | some e => ⟨some e, r.mgr, r.evs⟩
    | none =>
      let svcNow := (lookupSvc r.mgr sid).getD svc
      match svcNow.start with
      | Except.error e => ⟨some e, r.mgr, r.evs⟩
      | Except.ok svc2 =>
        let m2 := updateSvc r.mgr sid (fun _ => svc2)
        let ok := whOutcome svc2 (orc sid)
        let m3 := updateSvc m2 sid (fun _ => whApply svc2 ok)
        ⟨none, m3, r.evs ++ [Ev.start sid, Ev.waitH sid ok]⟩

/-! ## Model reconfiguration (lines 393-420, 575-595) -/

/-- `_apply_model_to_services` (lines 393-420): rewrite the `--model` and
`--gpu-memory-utilization` argument pairs of the `vllm` service (and its
display name) and the `--llm-model` pair of the `miotts` service.  An
`IndexError` from a flag sitting in final position propagates. -/
def apply_model_vllm (m : Mgr) (model_id gpu : String) : Except String Mgr :=
  match lookupSvc m "vllm" with
  | none => Except.ok m
  | some svc =>
    match substFlag svc.command "--model" model_id with
    | Except.error e => Except.error e
    | Except.ok c1 =>
      match substFlag c1 "--gpu-memory-utilization" gpu with
      | Except.error e => Except.error e
      | Except.ok c2 =>
        Except.ok (updateSvc m "vllm" (fun _ =>
          { svc with command := c2,
                     name := "vLLM (" ++ lastComponent model_id ++ ")" }))

def apply_model_miotts (m1 : Mgr) (model_id : String) : Except String Mgr :=
  match lookupSvc m1 "miotts" with
  | none => Except.ok m1
  | some svc =>
    match substFlag svc.command "--llm-model" model_id with
    | Except.error e => Except.error e
    | Except.ok c =>
      Except.ok (updateSvc m1 "miotts" (fun _ => { svc with command := c }))

def apply_model_to_services (m : Mgr) (model_id gpu : String) :
    Except String Mgr :=
  match apply_model_vllm m model_id gpu with
  | Except.error e => Except.error e
  | Except.ok m1 => apply_model_miotts m1 model_id

/-- The `any(s.state in ("running", "starting") for s in ...)` scan of
`change_model` (lines 582-584).  Python's `any` short-circuits, so lazy
`state` rewrites happen only for the services actually inspected. -/
def anyRunningScan : Mgr → Bool × Mgr
  | [] => (false, [])
  | (k, s) :: rest =>
    let p := s.state
    if p.1 = "running" ∨ p.1 = "starting" then (true, (k, p.2) :: rest)
    else
      let q := anyRunningScan rest
      (q.1, (k, p.2) :: q.2)

/-- Result of the `change_model` endpoint: HTTP-visible error (if any),
the manager, the persisted `current_model` document, and the event trace. -/
structure CMRes where
  err : Option String
  sm : ServiceManager
  persisted : Option String
  evs : List Ev
deriving Repr, DecidableEq

/-- `change_model` (lines 575-595).  `models` is the configured model list
as `(id, gpu_memory_utilization)` pairs; `persisted` is the state.json
`current_model` value.  Unknown ids yield the HTTP 400 detail; when any
unit is `"running"`/`"starting"` everything is stopped, the substitution
applied, the selection persisted, and `start_all` run. -/
def change_model (models : List (String × String))
    (orc : String → Bool) (env : String → ManagedService.StopEnv)
    (sm : ServiceManager) (persisted : Option String) (model_id : String) :
    CMRes :=
  match models.find? (fun e => e.1 = model_id) with
  | none => ⟨some ("Unknown model: " ++ model_id), sm, persisted, []⟩
  | some model =>
    let scan := anyRunningScan sm.services
    let sm1 : ServiceManager := ⟨scan.2, sm.starting_⟩
    if scan.1 then
      let r1 := stop_all env sm1
      match r1.err with
      | some e => ⟨some e, r1.sm, persisted, r1.evs⟩
      | none =>
        match apply_model_to_services r1.sm.services model_id model.2 with
        | Except.error e => ⟨some e, r1.sm, persisted, r1.evs⟩
        | Except.ok m2 =>
          let r2 := start_all orc ⟨m2, r1.sm.starting_⟩
          ⟨r2.err, r2.sm, some model_id, r1.evs ++ r2.evs⟩
    else
      match apply_model_to_services sm1.services model_id model.2 with
      | Except.error e => ⟨some e, sm1, persisted, []⟩
      | Except.ok m2 => ⟨none, ⟨m2, sm1.starting_⟩, some model_id, []⟩

/-! ## The per-unit lifecycle transition relation (claim C9)

Each constructor mirrors one state-mutating code path, under the calling
discipline of the orchestrator (`wait_healthy` is only ever invoked right
after a successful `start()`, which has just set `_state = "starting"`:
lines 241-242, 263-264, 265-266). -/

/-- One observable lifecycle transition of a `ManagedService`. -/
inductive LifecycleStep : ManagedService → ManagedService → Prop where
  /-- A successful `start()` (lines 94-110). -/
  | startStep (s : ManagedService) (h : s.procAlive = false) :
      LifecycleStep s s.startApply
  /-- A `wait_healthy()` call right after `start()` (lines 112-136);
  `b` is the probe loop's verdict, forced to `true` without a health URL. -/
  | waitStep (s : ManagedService) (b : Bool) (h : s.state_ = "starting") :
      LifecycleStep s (whApply s (whOutcome s b))
  /-- A `stop()` call (lines 138-160). -/
  | stopStep (s : ManagedService) (env : ManagedService.StopEnv) :
      LifecycleStep s (s.stop env).1
  /-- Any read of the lazy `state` property (lines 76-82), which rewrites
  `_state` to `"stopped"` once the process is observed gone. -/
  | queryStep (s : ManagedService) : LifecycleStep s s.state.2

/-! ## Property vocabulary used by the claims -/

/-- Number of polling iterations `wait_healthy` performs when nothing ever
succeeds: the ceiling of `timeout / interval`. -/
def whIters (timeout interval : Nat) : Nat := (timeout + interval - 1) / interval

/-- Iteration `j` of the probe loop neither observes process exit nor a
200 response, so polling continues. -/
def continues (tr : Nat → ProbeObs) (j : Nat) : Prop :=
  (tr j).returncode = none ∧ (tr j).response ≠ some 200

/-- A unit that is stopped (or was never started): `self.process is None`
or the process has an exit code. -/
def stoppedUnit (s : ManagedService) : Prop :=
  s.process = none ∨ ∃ rc, s.process = some (some rc)

/-- `u` directly declares `d` as a dependency. -/
def depEdge (m : Mgr) (u d : String) : Prop :=
  ∃ svc, lookupSvc m u = some svc ∧ d ∈ svc.depends_on

/-- The declared dependency graph has no cycles. -/
def AcyclicDeps (m : Mgr) : Prop := ∀ x, ¬ Relation.TransGen (depEdge m) x x

/-- `l` lists every dependency before each unit that declares it: any
prefix of `l` containing a unit also contains each of its dependencies. -/
def TopoOK (m : Mgr) (l : List String) : Prop :=
  ∀ u d, depEdge m u d → ∀ p, p <+: l → u ∈ p → d ∈ p

/-- Every declared dependency id of every configured service is itself a
configured service id. -/
def ClosedDeps (m : Mgr) : Prop :=
  ∀ e ∈ m, ∀ d ∈ e.2.depends_on, d ∈ keys m

/-- Runtime well-formedness: a unit with a live OS process reads as
`"running"` (rules out `start()`'s `AlreadyRunning` error inside the
bulk loops). -/
def WFMgr (m : Mgr) : Prop :=
  ∀ x s, lookupSvc m x = some s → s.procAlive = true → (s.state).1 = "running"

/-- Dependency `d` has reported healthy before this point of the run:
either it already read `"running"` in the initial manager, or a
`wait_healthy` call on it returned success earlier in the trace. -/
def healthyBefore (m0 : Mgr) (pre : List Ev) (d : String) : Prop :=
  (∃ s0, lookupSvc m0 d = some s0 ∧ (s0.state).1 = "running") ∨
    Ev.waitH d true ∈ pre

/-- Claim C1's invariant over a trace: whenever a unit is started, each of
its declared dependencies has reported healthy strictly earlier. -/
def RespectsDeps (m0 : Mgr) (tr : List Ev) : Prop :=
  ∀ pre u post, tr = pre ++ Ev.start u :: post →
    ∀ d, depEdge m0 u d → healthyBefore m0 pre d

/-- Ids of the units a trace starts, in order. -/
def startedIds (evs : List Ev) : List String :=
  evs.filterMap (fun e => match e with | Ev.start s => some s | _ => none)

/-- Ids of the units a trace stops, in order. -/
def stoppedIds (evs : List Ev) : List String :=
  evs.filterMap (fun e => match e with | Ev.stop s => some s | _ => none)

/-- Two manager states with the same service ids and the same declared
dependencies (runtime fields and commands may differ). -/
def DepsAgree (m m' : Mgr) : Prop :=
  keys m = keys m' ∧
  ∀ x, (lookupSvc m x).map ManagedService.depends_on
    = (lookupSvc m' x).map ManagedService.depends_on

/-- Runtime fields (process handle and `_state`) seen through lookup. -/
def runtimeOf (m : Mgr) (x : String) : Option (Option (Option Int) × String) :=
  (lookupSvc m x).map (fun s => (s.process, s.state_))

/-- Number of ids the DFS may still add to `visited`. -/
def unvisited (m : Mgr) (visited : List String) : Nat :=
  ((allIds m).dedup.filter (fun x => decide (x ∉ visited))).length

/-- Invariant of the DFS state relative to the implicit recursion stack
`stack` (the chain of ids currently being visited). -/
structure VInv (m : Mgr) (st : VisitSt) (stack : List String) : Prop where
  mem_iff : ∀ x, x ∈ st.visited ↔ (x ∈ st.order ∨ x ∈ stack)
  order_nodup : st.order.Nodup
  stack_not_order : ∀ x ∈ stack, x ∉ st.order
  topo : TopoOK m st.order
  sub_all : ∀ x ∈ st.visited, x ∈ allIds m

/-! ## Concrete fixtures for counterexamples and witnesses -/

/-- Unit `a` of the C1 counterexample: has a health URL, no dependencies. -/
def svcA1 : ManagedService :=
  ⟨"A", [], some "http://localhost:8000/health", [], 120, 5, none, "stopped", false⟩

/-- Unit `b` of the C1 counterexample: depends on `a`, no health URL. -/
def svcB1 : ManagedService :=
  ⟨"B", [], none, ["a"], 120, 5, none, "stopped", false⟩

/-- Two-unit configuration for the C1 counterexample. -/
def cfg1 : Mgr := [("a", svcA1), ("b", svcB1)]

/-- Oracle under which every probe loop fails (unit `a` never healthy). -/
def orcFail : String → Bool := fun _ => false

/-- A unit in `"error"` whose process has exited (startup died):
fixture for the C9 counterexample. -/
def svcErr9 : ManagedService :=
  ⟨"E", [], some "http://localhost:9/h", [], 120, 5, some (some 1), "error", false⟩

/-- Running unit `a` for the C8 counterexample. -/
def svcA8 : ManagedService :=
  ⟨"A", [], none, [], 120, 5, some none, "running", false⟩

/-- Stopped unit `b` for the C8 counterexample. -/
def svcB8 : ManagedService :=
  ⟨"B", [], none, [], 120, 5, none, "stopped", false⟩

/-- Manager for the C8 counterexample: `a` running, `b` stopped. -/
def sm8 : ServiceManager := ⟨[("a", svcA8), ("b", svcB8)], false⟩

/-- Cooperative stop environment: signals deliverable, `wait()` returns
within the grace period with exit code 0. -/
def envOk : String → ManagedService.StopEnv := fun _ => ⟨false, true, 0, false⟩

/-- Configured model list for the C8 counterexample. -/
def models8 : List (String × String) := [("m1", "0.9")]

/-- Probe trace for the C5 witness: iteration 0 gets a connection error,
iteration 1 gets HTTP 200. -/
def tr5 : Nat → ProbeObs := fun k => if k = 0 then ⟨none, none⟩ else ⟨none, some 200⟩

/-- Service with a health URL, 10 s timeout, 5 s poll, for the C5 witness. -/
def svc5 : ManagedService :=
  ⟨"S", [], some "http://localhost:8000/health", [], 10, 5, some none, "starting", true⟩

/-! # Helper lemmas -/

theorem findIdxQ_none {α : Type} {p : α → Bool} :
    ∀ (l : List α) (i : Nat), (∀ x ∈ l, p x = false) → List.findIdx? p l i = none := by
  intro l
  induction l with
  | nil => intro i _; rfl
  | cons a l ih =>
    intro i h
    rw [List.findIdx?_cons, h a (by simp)]
    simp only [Bool.false_eq_true, if_false]
    exact ih (i + 1) (fun x hx => h x (by simp [hx]))

theorem findIdxQ_append_last {α : Type} {p : α → Bool} {a : α} (hp : p a = true) :
    ∀ (c : List α) (i : Nat), (∀ x ∈ c, p x = false) →
      List.findIdx? p (c ++ [a]) i = some (i + c.length) := by
  intro c
  induction c with
  | nil => intro i _; simp [List.findIdx?_cons, hp]
  | cons b c ih =>
    intro i h
    rw [List.cons_append, List.findIdx?_cons, h b (by simp)]
    simp only [Bool.false_eq_true, if_false]
    rw [ih (i + 1) (fun x hx => h x (by simp [hx]))]
    simp; omega

theorem indexOfQ_none {l : List String} {a : String} (h : a ∉ l) :
    l.indexOf? a = none := by
  unfold List.indexOf?
  exact findIdxQ_none l 0 (fun x hx => by
    simp only [beq_eq_false_iff_ne]
    intro he; exact h (he ▸ hx))

theorem indexOfQ_append_last {c : List String} {a : String} (h : a ∉ c) :
    (c ++ [a]).indexOf? a = some c.length := by
  unfold List.indexOf?
  have := findIdxQ_append_last (p := fun x => x == a) (a := a) (by simp) c 0
    (fun x hx => by
      simp only [beq_eq_false_iff_ne]
      intro he; exact h (he ▸ hx))
  simpa using this

theorem takeLast_length_le {α : Type} (n : Nat) (l : List α) :
    (takeLast n l).length ≤ n := by
  simp [takeLast]
  omega

theorem mem_takeLast {α : Type} {n : Nat} {l : List α} {x : α}
    (h : x ∈ takeLast n l) : x ∈ l :=
  List.mem_of_mem_drop h

theorem takeLast_zero {α : Type} (l : List α) : takeLast 0 l = [] := by
  simp [takeLast]

theorem takeLast_length_of_le {α : Type} {n : Nat} {l : List α}
    (hn : 0 < n) (h : n ≤ l.length) : (takeLast n l).length = n := by
  simp [takeLast]
  omega

theorem procAlive_iff {s : ManagedService} :
    s.procAlive = true ↔ s.process = some none := by
  unfold ManagedService.procAlive
  match h : s.process with
  | none => simp
  | some none => simp
  | some (some rc) => simp

theorem stop_state_stopped (s : ManagedService) (env : ManagedService.StopEnv) :
    (s.stop env).1.state_ = "stopped" := by
  unfold ManagedService.stop
  match h : s.process with
  | none => simp
  | some (some rc) => simp
  | some none =>
    by_cases hw : env.waitCompletes <;> simp [hw]

/-! # Claim C10 -/

/-- C10: the command-substitution primitive is total over command vectors
when the flag token is absent (the substitution is silently skipped: the
`ValueError` from `list.index` is caught), but a command vector whose flag
token is the final element, with no following token, makes the assignment
`cmd[idx + 1] = val` raise an uncaught out-of-range `IndexError` instead
of skipping or replacing. -/
theorem C10_substFlag_flag_last_raises :
    (∀ cmd flag val, flag ∉ cmd → substFlag cmd flag val = Except.ok cmd) ∧
    (∀ c flag val, flag ∉ c →
      substFlag (c ++ [flag]) flag val =
        Except.error "IndexError: list assignment index out of range") := by
  constructor
  · intro cmd flag val h
    unfold substFlag
    rw [indexOfQ_none h]
  · intro c flag val h
    unfold substFlag
    rw [indexOfQ_append_last h]
    simp

/-- Witness for C10 at concrete inputs: a vector without `--model` is
returned unchanged; a vector ending in `--model` raises. -/
theorem C10_witness :
    substFlag ["serve", "--port", "8000"] "--model" "m" =
        Except.ok ["serve", "--port", "8000"] ∧
    substFlag (["serve"] ++ ["--model"]) "--model" "m" =
        Except.error "IndexError: list assignment index out of range" :=
  ⟨C10_substFlag_flag_last_raises.1 ["serve", "--port", "8000"] "--model" "m"
      (by decide),
   C10_substFlag_flag_last_raises.2 ["serve"] "--model" "m" (by decide)⟩

/-! # Claim C7 -/

/-- C7 counterexample: with `lineCount = 1` and noise pattern `"noise"`,
a log whose last `3 * 1` lines are all noise returns *no* lines, although
the log contains one meaningful line (`"real"`): the noise exclusion
happens only inside a 3N-line lookback window, so filtering *can* shrink
the result below N meaningful lines when noise dominates that window,
contrary to the claim. -/
theorem C7_counterexample :
    get_logs (some ["real", "noise", "noise", "noise"]) 1 (some ["noise"]) = []
      ∧ (["real", "noise", "noise", "noise"].filter
          (fun l => !(["noise"].any (fun p => strContains l p)))).length = 1 := by
  constructor
  · rfl
  · rfl

/-- C7 amended: log retrieval with `lineCount = N` and noise filtering
returns at most N lines, none of which contains any noise pattern, and a
missing log file yields an empty result; noise lines are excluded before
the tail-N cut *within a fixed lookback window of the last 3·N raw
lines*, so the result is only guaranteed to reach N lines when that
window still contains at least N meaningful lines (not when noise pushes
all meaningful lines out of the window). -/
theorem C7_get_logs_window :
    (∀ lines pats, get_logs none lines pats = []) ∧
    (∀ log lines pats, (get_logs log lines pats).length ≤ lines) ∧
    (∀ content lines pats, pats ≠ [] →
      ∀ l ∈ get_logs (some content) lines (some pats),
        pats.any (fun p => strContains l p) = false) ∧
    (∀ content lines pats, pats ≠ [] →
      lines ≤ ((takeLast (lines * 3) content).filter
          (fun l => !(pats.any (fun p => strContains l p)))).length →
      (get_logs (some content) lines (some pats)).length = lines) := by
  refine ⟨fun lines pats => rfl, ?_, ?_, ?_⟩
  · intro log lines pats
    match log with
    | none => simp [get_logs]
    | some content =>
      match pats with
      | none => exact takeLast_length_le lines content
      | some ps =>
        by_cases hps : ps.isEmpty
        · simp only [get_logs, hps, if_true]
          exact takeLast_length_le lines content
        · simp only [get_logs, hps, if_false]
          by_cases hl : lines = 0
          · subst hl
            simp [pyTailSlice, Nat.zero_mul, takeLast_zero]
          · simp only [pyTailSlice, hl, if_false]
            exact takeLast_length_le lines _
  · intro content lines pats hne l hl
    have hps : pats.isEmpty = false := by
      cases pats with
      | nil => exact absurd rfl hne
      | cons a t => rfl
    simp only [get_logs, hps, Bool.false_eq_true, if_false] at hl
    have hmem : l ∈ (takeLast (lines * 3) content).filter
        (fun l => !(pats.any (fun p => strContains l p))) := by
      by_cases h0 : lines = 0
      · subst h0; simpa [pyTailSlice] using hl
      · simp only [pyTailSlice, h0, if_false] at hl
        exact mem_takeLast hl
    have := List.of_mem_filter hmem
    simpa using this
  · intro content lines pats hne hge
    have hps : pats.isEmpty = false := by
      cases pats with
      | nil => exact absurd rfl hne
      | cons a t => rfl
    simp only [get_logs, hps, Bool.false_eq_true, if_false]
    by_cases h0 : lines = 0
    · subst h0
      simp [pyTailSlice, Nat.zero_mul, takeLast_zero]
    · simp only [pyTailSlice, h0, if_false]
      exact takeLast_length_of_le (by omega) hge

/-- Witness for C7's amended theorem at concrete inputs: a window with
enough meaningful lines yields exactly N noise-free lines, and a missing
log file yields an empty result. -/
theorem C7_witness :
    get_logs none 5 (some ["noise"]) = [] ∧
    (get_logs (some ["keep1", "noise", "keep2"]) 2 (some ["noise"])).length = 2 ∧
    (∀ l ∈ get_logs (some ["keep1", "noise", "keep2"]) 2 (some ["noise"]),
      (["noise"].any (fun p => strContains l p)) = false) :=
  ⟨C7_get_logs_window.1 5 (some ["noise"]),
   C7_get_logs_window.2.2.2 ["keep1", "noise", "keep2"] 2 ["noise"]
     (by decide) (by decide),
   C7_get_logs_window.2.2.1 ["keep1", "noise", "keep2"] 2 ["noise"] (by decide)⟩

/-! # Claim C6 -/

theorem stop_not_alive {s : ManagedService} (env : ManagedService.StopEnv)
    (h : s.procAlive = false) :
    s.stop env = ({ s with state_ := "stopped" }, []) := by
  unfold ManagedService.stop
  rcases hp : s.process with _ | rc
  · simp [hp]
  · rcases rc with _ | v
    · unfold ManagedService.procAlive at h
      rw [hp] at h
      simp at h
    · simp [hp]

/-- C6: `stop()` is idempotent — on a stopped (or already-stopped) unit it
returns successfully with no signal sent, and doing it twice in a row
behaves the same both times; and termination tolerates the process having
already exited between the liveness check and the signal send
(`ProcessLookupError` is swallowed: no SIGTERM is delivered, yet the call
still completes with state `"stopped"`). -/
theorem C6_stop_idempotent :
    (∀ (s : ManagedService) (env1 env2 : ManagedService.StopEnv),
      stoppedUnit s →
      (s.stop env1).2 = [] ∧ (s.stop env1).1.state_ = "stopped" ∧
      ((s.stop env1).1.stop env2).2 = [] ∧
      ((s.stop env1).1.stop env2).1.state_ = "stopped") ∧
    (∀ (s : ManagedService) (env : ManagedService.StopEnv),
      s.procAlive = true → env.termLookupFails = true →
      "SIGTERM" ∉ (s.stop env).2 ∧ (s.stop env).1.state_ = "stopped") := by
  constructor
  · intro s env1 env2 hs
    have hna : s.procAlive = false := by
      rcases hs with h | ⟨rc, h⟩ <;> simp [ManagedService.procAlive, h]
    rw [stop_not_alive env1 hna]
    have hna2 : ({ s with state_ := "stopped" } : ManagedService).procAlive
        = false := by
      unfold ManagedService.procAlive at hna ⊢
      exact hna
    rw [stop_not_alive env2 hna2]
    exact ⟨rfl, rfl, rfl, rfl⟩
  · intro s env halive hterm
    have hp : s.process = some none := procAlive_iff.mp halive
    refine ⟨?_, stop_state_stopped s env⟩
    unfold ManagedService.stop
    rw [hp, hterm]
    by_cases hw : env.waitCompletes
    · simp [hw]
    · by_cases hk : env.killLookupFails <;> simp [hw, hk]

/-! # Claim C9 -/

/-- C9 counterexample: a unit in `"error"` whose process has exited (the
`ProcessDiedDuringStartup` case) takes a lifecycle transition to
`"stopped"` on a mere read of the lazy `state` property — no new start
attempt — so `"starting"` is *not* the only transition out of `"error"`
and the unit does not stay in `"error"`. -/
theorem C9_counterexample :
    LifecycleStep svcErr9 svcErr9.state.2 ∧ svcErr9.state_ = "error" ∧
      svcErr9.state.2.state_ = "stopped" :=
  ⟨LifecycleStep.queryStep svcErr9, rfl, by decide⟩

/-- C9 amended: `"error"` is only ever *entered* from `"starting"` (a
failed `wait_healthy` right after `start()`); but out of `"error"` there
are two transitions, not one: back to `"starting"` via a new `start()`,
or to `"stopped"` — by `stop()`, or by the lazy `state` read once the
process is observed gone.  A health-timeout `"error"` with a live process
is the only case that stays in `"error"` (the step is the identity). -/
theorem C9_error_transitions :
    (∀ s t, LifecycleStep s t → t.state_ = "error" →
      s.state_ = "starting" ∨ s.state_ = "error") ∧
    (∀ s t, LifecycleStep s t → s.state_ = "error" →
      t.state_ = "starting" ∨ t.state_ = "stopped" ∨ t = s) := by
  constructor
  · intro s t hst ht
    cases hst with
    | startStep h =>
      simp [ManagedService.startApply] at ht
    | waitStep b h =>
      exact Or.inl h
    | stopStep env =>
      rw [stop_state_stopped s env] at ht
      simp at ht
    | queryStep =>
      unfold ManagedService.state at ht
      by_cases hs : s.state_ = "starting"
      · simp [hs] at ht
      · by_cases he : s.procExited
        · simp [hs, he] at ht
        · simp [hs, he] at ht
          exact Or.inr ht
  · intro s t hst hs
    cases hst with
    | startStep h =>
      exact Or.inl rfl
    | waitStep b h =>
      rw [h] at hs
      simp at hs
    | stopStep env =>
      exact Or.inr (Or.inl (stop_state_stopped s env))
    | queryStep =>
      unfold ManagedService.state
      by_cases hst2 : s.state_ = "starting"
      · rw [hst2] at hs; simp at hs
      · by_cases he : s.procExited
        · simp [hst2, he]
        · simp [hst2, he]

/-- Witness for C9's amended theorem: a failed health wait right after
`start()` enters `"error"` from `"starting"`, and a `stop()` on an
errored unit leaves `"error"` for `"stopped"`. -/
theorem C9_witness :
    (svc5.startApply.state_ = "starting" ∨ svc5.startApply.state_ = "error") ∧
    ((svcErr9.stop (envOk "e")).1.state_ = "starting" ∨
      (svcErr9.stop (envOk "e")).1.state_ = "stopped" ∨
      (svcErr9.stop (envOk "e")).1 = svcErr9) :=
  ⟨C9_error_transitions.1 svc5.startApply
      (whApply svc5.startApply (whOutcome svc5.startApply false))
      (LifecycleStep.waitStep svc5.startApply false rfl) (by decide),
   C9_error_transitions.2 svcErr9 (svcErr9.stop (envOk "e")).1
      (LifecycleStep.stopStep svcErr9 (envOk "e")) rfl⟩

/-! # Claim C5 -/

theorem whLoop_exhausted {tr : Nat → ProbeObs} {timeout interval : Nat}
    {hpos : 0 < interval} {k elapsed : Nat} (h : ¬ elapsed < timeout) :
    whLoop tr timeout interval hpos k elapsed = ⟨false, "error", k⟩ := by
  rw [whLoop]
  simp [h]

theorem whLoop_exit {tr : Nat → ProbeObs} {timeout interval : Nat}
    {hpos : 0 < interval} {k elapsed : Nat} {rc : Int}
    (h : elapsed < timeout) (hrc : (tr k).returncode = some rc) :
    whLoop tr timeout interval hpos k elapsed = ⟨false, "error", k⟩ := by
  rw [whLoop]
  simp only [h, dif_pos]
  rw [hrc]

theorem whLoop_success {tr : Nat → ProbeObs} {timeout interval : Nat}
    {hpos : 0 < interval} {k elapsed : Nat}
    (h : elapsed < timeout) (hrc : (tr k).returncode = none)
    (hresp : (tr k).response = some 200) :
    whLoop tr timeout interval hpos k elapsed = ⟨true, "running", k + 1⟩ := by
  rw [whLoop]
  simp only [h, dif_pos]
  rw [hrc, hresp]
  simp

theorem whLoop_step {tr : Nat → ProbeObs} {timeout interval : Nat}
    {hpos : 0 < interval} {k elapsed : Nat}
    (h : elapsed < timeout) (hc : continues tr k) :
    whLoop tr timeout interval hpos k elapsed =
      whLoop tr timeout interval hpos (k + 1) (elapsed + interval) := by
  obtain ⟨hrc, hresp⟩ := hc
  rw [whLoop]
  simp only [h, dif_pos]
  rw [hrc]
  rcases hr : (tr k).response with _ | code
  · simp
  · rw [hr] at hresp
    have : code ≠ 200 := by intro he; exact hresp (by rw [he])
    simp [this]

theorem whLoop_skip {tr : Nat → ProbeObs} {timeout interval : Nat}
    {hpos : 0 < interval} :
    ∀ (n k elapsed : Nat), (∀ j, j < n → continues tr (k + j)) →
      (∀ j, j < n → elapsed + j * interval < timeout) →
      whLoop tr timeout interval hpos k elapsed =
        whLoop tr timeout interval hpos (k + n) (elapsed + n * interval) := by
  intro n
  induction n with
  | zero => intro k elapsed _ _; simp
  | succ n ih =>
    intro k elapsed hc hb
    have h0 : elapsed < timeout := by
      have := hb 0 (by omega)
      simpa using this
    rw [whLoop_step h0 (by simpa using hc 0 (by omega))]
    rw [ih (k + 1) (elapsed + interval)
      (fun j hj => by
        have := hc (j + 1) (by omega)
        have he : k + (j + 1) = k + 1 + j := by omega
        rwa [he] at this)
      (fun j hj => by
        have := hb (j + 1) (by omega)
        have he : elapsed + (j + 1) * interval
            = elapsed + interval + j * interval := by ring
        rwa [he] at this)]
    have h1 : k + 1 + n = k + (n + 1) := by omega
    have h2 : elapsed + interval + n * interval
        = elapsed + (n + 1) * interval := by ring
    rw [h1, h2]

theorem whIters_mul_ge {timeout interval : Nat} (hpos : 0 < interval) :
    timeout ≤ whIters timeout interval * interval := by
  unfold whIters
  have hd := Nat.div_add_mod (timeout + interval - 1) interval
  have hm : (timeout + interval - 1) % interval < interval :=
    Nat.mod_lt _ hpos
  have hc : interval * ((timeout + interval - 1) / interval)
      = ((timeout + interval - 1) / interval) * interval := Nat.mul_comm _ _
  omega

theorem lt_whIters_mul {timeout interval j : Nat} (hpos : 0 < interval)
    (hj : j < whIters timeout interval) : j * interval < timeout := by
  unfold whIters at hj
  have hd := Nat.div_add_mod (timeout + interval - 1) interval
  have hm : (timeout + interval - 1) % interval < interval :=
    Nat.mod_lt _ hpos
  have h1 : j * interval + interval ≤
      ((timeout + interval - 1) / interval) * interval := by
    have : j + 1 ≤ (timeout + interval - 1) / interval := hj
    calc j * interval + interval = (j + 1) * interval := by ring
    _ ≤ ((timeout + interval - 1) / interval) * interval :=
        Nat.mul_le_mul_right interval this
  have hc : interval * ((timeout + interval - 1) / interval)
      = ((timeout + interval - 1) / interval) * interval := Nat.mul_comm _ _
  omega

theorem one_le_whIters {x interval : Nat} (hpos : 0 < interval) (hx : 0 < x) :
    1 ≤ whIters x interval := by
  unfold whIters
  rw [Nat.one_le_div_iff hpos]
  omega

theorem whIters_sub_step {x interval : Nat} (hpos : 0 < interval)
    (hx : 0 < x) :
    whIters (x - interval) interval + 1 ≤ whIters x interval := by
  unfold whIters
  have hnum : x + interval - 1 = (x - 1) + interval := by omega
  rw [hnum, Nat.add_div_right _ hpos]
  by_cases hxi : x ≤ interval
  · have h0 : x - interval = 0 := by omega
    rw [h0]
    have hz : (0 + interval - 1) / interval = 0 := Nat.div_eq_of_lt (by omega)
    rw [hz]
    simp
  · have hnum2 : x - interval + interval - 1 = x - 1 := by omega
    rw [hnum2]

theorem whLoop_probes_le (tr : Nat → ProbeObs) (timeout interval : Nat)
    (hpos : 0 < interval) (k elapsed : Nat) :
    (whLoop tr timeout interval hpos k elapsed).probes
      ≤ k + whIters (timeout - elapsed) interval := by
  by_cases h : elapsed < timeout
  · rcases hrc : (tr k).returncode with _ | rc
    · have hone : 1 ≤ whIters (timeout - elapsed) interval :=
        one_le_whIters hpos (by omega)
      have hstep : whIters (timeout - elapsed - interval) interval + 1
          ≤ whIters (timeout - elapsed) interval :=
        whIters_sub_step hpos (by omega)
      have hsub : timeout - (elapsed + interval)
          = timeout - elapsed - interval := by omega
      rcases hresp : (tr k).response with _ | code
      · rw [whLoop_step h ⟨hrc, by rw [hresp]; simp⟩]
        have ih := whLoop_probes_le tr timeout interval hpos (k + 1)
          (elapsed + interval)
        rw [hsub] at ih
        omega
      · by_cases hc : code = 200
        · subst hc
          rw [whLoop_success h hrc hresp]
          simp only []
          omega
        · rw [whLoop_step h ⟨hrc, by rw [hresp]; simp [hc]⟩]
          have ih := whLoop_probes_le tr timeout interval hpos (k + 1)
            (elapsed + interval)
          rw [hsub] at ih
          omega
    · rw [whLoop_exit h hrc]
      simp
  · rw [whLoop_exhausted h]
    simp
termination_by timeout - elapsed
decreasing_by all_goals omega

/-- C5: with a configured health URL, `wait_healthy` is a bounded retry
loop: it issues at most `⌈startupTimeout / pollInterval⌉` probes; each
iteration checks process exit *before* probing (an observed exit code
fails fast to state `"error"` with no further probe, whatever the probe
would have returned); probe errors and non-200 responses just continue
polling; the first 200 returns success in state `"running"`; and
exhausting the timeout without a 200 returns failure in state `"error"`
after exactly the ceiling number of probes. -/
theorem C5_wait_healthy_bounded :
    ∀ (svc : ManagedService) (u : String), svc.health_url = some u →
    ∀ (hpos : 0 < svc.startup_poll_interval) (tr : Nat → ProbeObs),
    ((wait_healthy svc tr hpos).probes
        ≤ whIters svc.startup_timeout svc.startup_poll_interval) ∧
    (∀ k rc, (∀ j, j < k → continues tr j) →
      k * svc.startup_poll_interval < svc.startup_timeout →
      (tr k).returncode = some rc →
      wait_healthy svc tr hpos = ⟨false, "error", k⟩) ∧
    (∀ k, (∀ j, j < k → continues tr j) →
      k * svc.startup_poll_interval < svc.startup_timeout →
      (tr k).returncode = none → (tr k).response = some 200 →
      wait_healthy svc tr hpos = ⟨true, "running", k + 1⟩) ∧
    ((∀ j, continues tr j) →
      wait_healthy svc tr hpos =
        ⟨false, "error",
          whIters svc.startup_timeout svc.startup_poll_interval⟩) := by
  intro svc u hurl hpos tr
  have hwh : wait_healthy svc tr hpos
      = whLoop tr svc.startup_timeout svc.startup_poll_interval hpos 0 0 := by
    unfold wait_healthy
    rw [hurl]
  refine ⟨?_, ?_, ?_, ?_⟩
  · rw [hwh]
    have := whLoop_probes_le tr svc.startup_timeout svc.startup_poll_interval
      hpos 0 0
    simpa using this
  · intro k rc hcont hkT hrc
    rw [hwh]
    rw [whLoop_skip k 0 0 (fun j hj => by simpa using hcont j hj)
      (fun j hj => by
        have : j * svc.startup_poll_interval ≤ k * svc.startup_poll_interval :=
          Nat.mul_le_mul_right _ (by omega)
        omega)]
    simp only [Nat.zero_add]
    exact whLoop_exit hkT hrc
  · intro k hcont hkT hrc hresp
    rw [hwh]
    rw [whLoop_skip k 0 0 (fun j hj => by simpa using hcont j hj)
      (fun j hj => by
        have : j * svc.startup_poll_interval ≤ k * svc.startup_poll_interval :=
          Nat.mul_le_mul_right _ (by omega)
        omega)]
    simp only [Nat.zero_add]
    exact whLoop_success hkT hrc hresp
  · intro hcont
    rw [hwh]
    rw [whLoop_skip (whIters svc.startup_timeout svc.startup_poll_interval)
      0 0 (fun j _ => by simpa using hcont (0 + j))
      (fun j hj => by
        have := lt_whIters_mul hpos hj
        omega)]
    simp only [Nat.zero_add]
    refine whLoop_exhausted ?_
    have := @whIters_mul_ge svc.startup_timeout svc.startup_poll_interval hpos
    omega

/-- Witness for C5 at a concrete run: 10 s timeout, 5 s poll interval, a
connection error on the first probe and HTTP 200 on the second — success
after exactly 2 probes. -/
theorem C5_witness :
    wait_healthy svc5 tr5 (by decide) = ⟨true, "running", 2⟩ :=
  (C5_wait_healthy_bounded svc5 "http://localhost:8000/health" rfl
      (by decide) tr5).2.2.1 1
    (fun j hj => by
      have hj0 : j = 0 := by omega
      subst hj0
      exact ⟨rfl, by decide⟩)
    (by decide) rfl rfl

/-! # Lemmas about the manager dictionary and the DFS -/

theorem mem_keys_of_lookup {m : Mgr} {x : String} {s : ManagedService}
    (h : lookupSvc m x = some s) : x ∈ keys m := by
  induction m with
  | nil => simp [lookupSvc] at h
  | cons e rest ih =>
    by_cases he : e.1 = x
    · simp [keys, he]
    · simp only [lookupSvc, he, if_false] at h
      simp [keys]
      right
      simpa [keys] using ih h

theorem lookup_of_mem_keys {m : Mgr} {x : String} (h : x ∈ keys m) :
    ∃ s, lookupSvc m x = some s := by
  induction m with
  | nil => simp [keys] at h
  | cons e rest ih =>
    by_cases he : e.1 = x
    · exact ⟨e.2, by simp [lookupSvc, he]⟩
    · have hx : x ∈ keys rest := by
        simp only [keys, List.map_cons, List.mem_cons] at h
        rcases h with h | h
        · exact absurd h.symm he
        · simpa [keys] using h
      obtain ⟨s, hs⟩ := ih hx
      exact ⟨s, by simp [lookupSvc, he, hs]⟩

theorem lookup_entry_mem {m : Mgr} {x : String} {s : ManagedService} :
    lookupSvc m x = some s → (x, s) ∈ m := by
  induction m with
  | nil => intro h; simp [lookupSvc] at h
  | cons e rest ih =>
    obtain ⟨k, v⟩ := e
    intro h
    by_cases he : k = x
    · subst he
      simp only [lookupSvc, if_pos] at h
      have h2 : v = s := by injection h
      subst h2
      exact List.mem_cons_self _ _
    · simp only [lookupSvc, he, if_false] at h
      exact List.mem_cons_of_mem _ (ih h)

theorem deps_mem_allIds {m : Mgr} {x : String} {s : ManagedService}
    (h : lookupSvc m x = some s) : ∀ d ∈ s.depends_on, d ∈ allIds m := by
  intro d hd
  have hmem := lookup_entry_mem h
  unfold allIds
  refine List.mem_append_right _ ?_
  rw [List.mem_flatten]
  exact ⟨s.depends_on, List.mem_map.mpr ⟨(x, s), hmem, rfl⟩, hd⟩

theorem key_mem_allIds {m : Mgr} {x : String} (h : x ∈ keys m) :
    x ∈ allIds m := List.mem_append_left _ h

theorem filter_sublist_of_imp {α : Type} {p q : α → Bool}
    (l : List α) (himp : ∀ a, p a = true → q a = true) :
    List.Sublist (l.filter p) (l.filter q) := by
  induction l with
  | nil => simp
  | cons a l ih =>
    by_cases hp : p a = true
    · rw [List.filter_cons_of_pos hp, List.filter_cons_of_pos (himp a hp)]
      exact ih.cons₂ a
    · rw [List.filter_cons_of_neg (by simpa using hp)]
      by_cases hq : q a = true
      · rw [List.filter_cons_of_pos hq]
        exact ih.cons a
      · rw [List.filter_cons_of_neg (by simpa using hq)]
        exact ih

theorem unvisited_le (m : Mgr) (v : List String) :
    unvisited m v ≤ (allIds m).length := by
  unfold unvisited
  calc ((allIds m).dedup.filter _).length ≤ (allIds m).dedup.length :=
        List.length_filter_le _ _
  _ ≤ (allIds m).length := (List.dedup_sublist _).length_le

theorem unvisited_mono {m : Mgr} {v v' : List String}
    (h : ∀ x, x ∈ v → x ∈ v') : unvisited m v' ≤ unvisited m v := by
  unfold unvisited
  refine List.Sublist.length_le (filter_sublist_of_imp _ ?_)
  intro a ha
  simp only [decide_eq_true_eq] at ha ⊢
  intro hav
  exact ha (h a hav)


theorem unvisited_cons_lt {m : Mgr} {v : List String} {x : String}
    (hx : x ∈ allIds m) (hv : x ∉ v) :
    unvisited m (x :: v) < unvisited m v := by
  unfold unvisited
  have hsub : List.Sublist
      ((allIds m).dedup.filter (fun a => decide (a ∉ x :: v)))
      ((allIds m).dedup.filter (fun a => decide (a ∉ v))) := by
    refine filter_sublist_of_imp _ ?_
    intro a ha
    simp only [decide_eq_true_eq, List.mem_cons, not_or] at ha ⊢
    exact ha.2
  refine Nat.lt_of_le_of_ne hsub.length_le ?_
  intro heq
  have heqlist := hsub.eq_of_length heq
  have hxin : x ∈ (allIds m).dedup.filter (fun a => decide (a ∉ v)) := by
    rw [List.mem_filter]
    exact ⟨List.mem_dedup.mpr hx, by simpa using hv⟩
  rw [← heqlist, List.mem_filter] at hxin
  simp at hxin

theorem snoc_inj {α : Type} {l1 l2 : List α} {a b : α}
    (h : l1 ++ [a] = l2 ++ [b]) : l1 = l2 ∧ a = b := by
  have h' := congrArg List.reverse h
  simp only [List.reverse_append, List.reverse_cons, List.reverse_nil,
    List.nil_append, List.singleton_append, List.cons.injEq] at h'
  exact ⟨List.reverse_injective h'.2, h'.1⟩

theorem prefix_snoc {α : Type} {p l : List α} {a : α}
    (h : p <+: l ++ [a]) : p <+: l ∨ p = l ++ [a] := by
  obtain ⟨t, ht⟩ := h
  rcases List.eq_nil_or_concat t with rfl | ⟨t', b, rfl⟩
  · right
    simpa using ht
  · left
    rw [List.concat_eq_append, ← List.append_assoc] at ht
    obtain ⟨hl, _⟩ := snoc_inj ht
    exact ⟨t', hl⟩

theorem topo_snoc {m : Mgr} {ord : List String} {sid : String}
    (htopo : TopoOK m ord) (hdeps : ∀ d, depEdge m sid d → d ∈ ord) :
    TopoOK m (ord ++ [sid]) := by
  intro u d hud p hp hu
  rcases prefix_snoc hp with hp' | rfl
  · exact htopo u d hud p hp' hu
  · rcases List.mem_append.mp hu with hu' | hu'
    · exact List.mem_append_left _ (htopo u d hud ord List.prefix_rfl hu')
    · have husid : u = sid := by simpa using hu'
      subst husid
      exact List.mem_append_left _ (hdeps d hud)

theorem mem_take_indexOf_succ {l : List String} {a : String} (h : a ∈ l) :
    a ∈ l.take (l.indexOf a + 1) := by
  induction l with
  | nil => simp at h
  | cons b l ih =>
    by_cases hab : a = b
    · subst hab
      simp [List.indexOf_cons_self]
    · have hmem : a ∈ l := by
        rcases List.mem_cons.mp h with h' | h'
        · exact absurd h' hab
        · exact h'
      rw [List.indexOf_cons_ne _ (by exact fun he => hab he.symm)]
      rw [Nat.succ_eq_add_one, List.take_succ_cons]
      exact List.mem_cons_of_mem _ (ih hmem)

theorem indexOf_lt_of_mem_take {l : List String} {a : String} {k : Nat}
    (h : a ∈ l.take k) : l.indexOf a < k := by
  induction l generalizing k with
  | nil => simp at h
  | cons b l ih =>
    cases k with
    | zero => simp at h
    | succ k =>
      by_cases hab : a = b
      · subst hab
        simp [List.indexOf_cons_self]
      · rw [List.take_succ_cons] at h
        have hmem : a ∈ l.take k := by
          rcases List.mem_cons.mp h with h' | h'
          · exact absurd h' hab
          · exact h'
        rw [List.indexOf_cons_ne _ (by exact fun he => hab he.symm)]
        exact Nat.succ_lt_succ (ih hmem)


theorem visitF_sound (m : Mgr) (hacy : AcyclicDeps m) :
    ∀ (fuel : Nat) (sid : String) (st : VisitSt) (stack : List String),
      VInv m st stack →
      sid ∈ allIds m →
      unvisited m st.visited < fuel →
      (∀ s ∈ stack, Relation.TransGen (depEdge m) s sid) →
      VInv m (visitF m fuel sid st) stack ∧
      (∀ x ∈ st.visited, x ∈ (visitF m fuel sid st).visited) ∧
      (∃ delta, (visitF m fuel sid st).order = st.order ++ delta) ∧
      sid ∈ (visitF m fuel sid st).visited := by
  intro fuel
  induction fuel with
  | zero => intro sid st stack _ _ hf _; omega
  | succ fuel ih =>
    intro sid st stack hinv hsid hf hchain
    by_cases hv : sid ∈ st.visited
    · simp only [visitF, if_pos hv]
      exact ⟨hinv, fun x hx => hx, ⟨[], by simp⟩, hv⟩
    · have hsid_no : sid ∉ st.order ∧ sid ∉ stack := by
        constructor
        · intro hc; exact hv ((hinv.mem_iff sid).mpr (Or.inl hc))
        · intro hc; exact hv ((hinv.mem_iff sid).mpr (Or.inr hc))
      have hinv1 : VInv m ⟨sid :: st.visited, st.order⟩ (sid :: stack) := by
        refine ⟨?_, hinv.order_nodup, ?_, hinv.topo, ?_⟩
        · intro x
          simp only [List.mem_cons]
          constructor
          · rintro (rfl | hx)
            · exact Or.inr (Or.inl rfl)
            · rcases (hinv.mem_iff x).mp hx with h | h
              · exact Or.inl h
              · exact Or.inr (Or.inr h)
          · rintro (h | rfl | h)
            · exact Or.inr ((hinv.mem_iff x).mpr (Or.inl h))
            · exact Or.inl rfl
            · exact Or.inr ((hinv.mem_iff x).mpr (Or.inr h))
        · intro x hx
          rcases List.mem_cons.mp hx with rfl | hx'
          · exact hsid_no.1
          · exact hinv.stack_not_order x hx'
        · intro x hx
          rcases List.mem_cons.mp hx with rfl | hx'
          · exact hsid
          · exact hinv.sub_all x hx'
      have hf1 : unvisited m (sid :: st.visited) < fuel := by
        have := unvisited_cons_lt hsid hv
        omega
      rcases hlook : lookupSvc m sid with _ | svc
      · simp only [visitF, if_neg hv, hlook]
        refine ⟨?_, ?_, ⟨[sid], rfl⟩, by simp⟩
        · refine ⟨?_, ?_, ?_, ?_, ?_⟩
          · intro x
            simp only [List.mem_cons, List.mem_append, List.mem_nil_iff,
              or_false]
            constructor
            · rintro (rfl | hx)
              · exact Or.inl (Or.inr rfl)
              · rcases (hinv.mem_iff x).mp hx with h | h
                · exact Or.inl (Or.inl h)
                · exact Or.inr h
            · rintro ((h | rfl) | h)
              · exact Or.inr ((hinv.mem_iff x).mpr (Or.inl h))
              · exact Or.inl rfl
              · exact Or.inr ((hinv.mem_iff x).mpr (Or.inr h))
          · rw [List.nodup_append]
            refine ⟨hinv.order_nodup, List.nodup_singleton sid, ?_⟩
            intro a ha hb
            rw [List.mem_singleton] at hb
            exact hsid_no.1 (hb ▸ ha)
          · intro x hx
            simp only [List.mem_append, List.mem_singleton]
            rintro (h | rfl)
            · exact hinv.stack_not_order x hx h
            · exact hsid_no.2 hx
          · refine topo_snoc hinv.topo ?_
            rintro d ⟨svc', hl', _⟩
            rw [hlook] at hl'
            exact absurd hl' (by simp)
          · intro x hx
            rcases List.mem_cons.mp hx with rfl | hx'
            · exact hsid
            · exact hinv.sub_all x hx'
        · intro x hx
          exact List.mem_cons_of_mem _ hx
      · have hfold : ∀ (ds : List String) (stA : VisitSt),
            (∀ d ∈ ds, depEdge m sid d) →
            VInv m stA (sid :: stack) →
            unvisited m stA.visited < fuel →
            VInv m (ds.foldl (fun s d => visitF m fuel d s) stA)
                (sid :: stack) ∧
            (∀ x ∈ stA.visited,
              x ∈ (ds.foldl (fun s d => visitF m fuel d s) stA).visited) ∧
            (∃ delta, (ds.foldl (fun s d => visitF m fuel d s) stA).order
                = stA.order ++ delta) ∧
            (∀ d ∈ ds,
              d ∈ (ds.foldl (fun s d => visitF m fuel d s) stA).visited) := by
          intro ds
          induction ds with
          | nil =>
            intro stA _ hinvA _
            exact ⟨hinvA, fun x hx => hx, ⟨[], by simp⟩, by simp⟩
          | cons d ds ihds =>
            intro stA hds hinvA hfA
            simp only [List.foldl_cons]
            have hd : depEdge m sid d := hds d (by simp)
            have hdall : d ∈ allIds m := by
              obtain ⟨svcx, hlx, hdx⟩ := hd
              exact deps_mem_allIds hlx d hdx
            have hchd : ∀ t ∈ sid :: stack,
                Relation.TransGen (depEdge m) t d := by
              intro t ht
              rcases List.mem_cons.mp ht with rfl | ht'
              · exact Relation.TransGen.single hd
              · exact (hchain t ht').tail hd
            obtain ⟨hinvB, hmonoB, hextB, hdB⟩ :=
              ih d stA (sid :: stack) hinvA hdall hfA hchd
            have hfB : unvisited m (visitF m fuel d stA).visited < fuel :=
              lt_of_le_of_lt (unvisited_mono hmonoB) hfA
            obtain ⟨hinvC, hmonoC, hextC, hdsC⟩ :=
              ihds (visitF m fuel d stA)
                (fun d2 hd2 => hds d2 (by simp [hd2])) hinvB hfB
            refine ⟨hinvC, fun x hx => hmonoC x (hmonoB x hx), ?_, ?_⟩
            · obtain ⟨d1, he1⟩ := hextB
              obtain ⟨d2, he2⟩ := hextC
              exact ⟨d1 ++ d2, by rw [he2, he1, List.append_assoc]⟩
            · intro d2 hd2
              rcases List.mem_cons.mp hd2 with rfl | hd3
              · exact hmonoC d2 hdB
              · exact hdsC d2 hd3
        simp only [visitF, if_neg hv, hlook]
        obtain ⟨hinv2, hmono2, hext2, hdeps2⟩ :=
          hfold svc.depends_on ⟨sid :: st.visited, st.order⟩
            (fun d hd => ⟨svc, hlook, hd⟩) hinv1 hf1
        have hsid2 : sid ∈ (svc.depends_on.foldl
            (fun s d => visitF m fuel d s)
            ⟨sid :: st.visited, st.order⟩).visited :=
          hmono2 sid (by simp)
        have hdeps_ord : ∀ d, depEdge m sid d →
            d ∈ (svc.depends_on.foldl (fun s d => visitF m fuel d s)
              ⟨sid :: st.visited, st.order⟩).order := by
          rintro d ⟨svc', hl', hd'⟩
          rw [hlook] at hl'
          injection hl' with hsvc
          rw [← hsvc] at hd'
          have hdv := hdeps2 d hd'
          rcases (hinv2.mem_iff d).mp hdv with h | h
          · exact h
          · exfalso
            rcases List.mem_cons.mp h with rfl | hds
            · exact hacy d (Relation.TransGen.single ⟨svc, hlook, hd'⟩)
            · exact hacy sid
                (Relation.TransGen.head ⟨svc, hlook, hd'⟩ (hchain d hds))
        refine ⟨?_, ?_, ?_, hsid2⟩
        · refine ⟨?_, ?_, ?_, topo_snoc hinv2.topo hdeps_ord, hinv2.sub_all⟩
          · intro x
            rw [hinv2.mem_iff x]
            simp only [List.mem_cons, List.mem_append, List.mem_nil_iff,
              or_false]
            constructor
            · rintro (h | rfl | h)
              · exact Or.inl (Or.inl h)
              · exact Or.inl (Or.inr rfl)
              · exact Or.inr h
            · rintro ((h | rfl) | h)
              · exact Or.inl h
              · exact Or.inr (Or.inl rfl)
              · exact Or.inr (Or.inr h)
          · rw [List.nodup_append]
            refine ⟨hinv2.order_nodup, List.nodup_singleton sid, ?_⟩
            intro a ha hb
            rw [List.mem_singleton] at hb
            exact hinv2.stack_not_order sid (by simp) (hb ▸ ha)
          · intro x hx
            simp only [List.mem_append, List.mem_singleton]
            rintro (h | rfl)
            · exact hinv2.stack_not_order x (List.mem_cons_of_mem _ hx) h
            · exact hacy x (hchain x hx)
        · intro x hx
          exact hmono2 x (List.mem_cons_of_mem _ hx)
        · obtain ⟨d1, he1⟩ := hext2
          exact ⟨d1 ++ [sid], by rw [he1, List.append_assoc]⟩

theorem start_order_sound (m : Mgr) (hacy : AcyclicDeps m) :
    TopoOK m (start_order m) ∧ (start_order m).Nodup ∧
    (∀ k ∈ keys m, k ∈ start_order m) ∧
    (∀ x ∈ start_order m, x ∈ allIds m) := by
  have haux : ∀ (entries : List (String × ManagedService)) (st : VisitSt),
      (∀ e ∈ entries, e.1 ∈ allIds m) → VInv m st [] →
      VInv m (entries.foldl (fun st e => visitF m (startFuel m) e.1 st) st)
          [] ∧
      (∀ x ∈ st.visited, x ∈
        (entries.foldl (fun st e => visitF m (startFuel m) e.1 st)
          st).visited) ∧
      (∀ e ∈ entries, e.1 ∈
        (entries.foldl (fun st e => visitF m (startFuel m) e.1 st)
          st).visited) := by
    intro entries
    induction entries with
    | nil =>
      intro st _ hinv
      exact ⟨hinv, fun x hx => hx, by simp⟩
    | cons e rest ihe =>
      intro st hall hinv
      simp only [List.foldl_cons]
      have he1 : e.1 ∈ allIds m := hall e (by simp)
      have hfu : unvisited m st.visited < startFuel m := by
        have := unvisited_le m st.visited
        unfold startFuel
        omega
      obtain ⟨hinvB, hmonoB, _, heB⟩ :=
        visitF_sound m hacy (startFuel m) e.1 st [] hinv he1 hfu (by simp)
      obtain ⟨hinvC, hmonoC, heC⟩ :=
        ihe (visitF m (startFuel m) e.1 st)
          (fun e2 h2 => hall e2 (by simp [h2])) hinvB
      refine ⟨hinvC, fun x hx => hmonoC x (hmonoB x hx), ?_⟩
      intro e2 h2
      rcases List.mem_cons.mp h2 with rfl | h3
      · exact hmonoC e2.1 heB
      · exact heC e2 h3
  have hinit : VInv m ⟨[], []⟩ [] := by
    refine ⟨by simp, List.nodup_nil, by simp, ?_, by simp⟩
    intro u d _ p hp hu
    rw [List.prefix_nil.mp hp] at hu
    simp at hu
  have hm : ∀ e ∈ m, e.1 ∈ allIds m := by
    intro e he
    exact key_mem_allIds (List.mem_map.mpr ⟨e, he, rfl⟩)
  obtain ⟨hinvF, _, heF⟩ := haux m ⟨[], []⟩ hm hinit
  have hso : start_order m
      = (m.foldl (fun st e => visitF m (startFuel m) e.1 st)
          ⟨[], []⟩).order := rfl
  refine ⟨?_, ?_, ?_, ?_⟩
  · rw [hso]; exact hinvF.topo
  · rw [hso]; exact hinvF.order_nodup
  · intro k hk
    rw [hso]
    obtain ⟨e, he, hke⟩ := List.mem_map.mp hk
    have hv := heF e he
    rcases (hinvF.mem_iff e.1).mp hv with h | h
    · rw [← hke]; exact h
    · simp at h
  · intro x hx
    rw [hso] at hx
    exact hinvF.sub_all x ((hinvF.mem_iff x).mpr (Or.inl hx))

/-! # Claim C3 -/

/-- C3: for every acyclic dependency configuration, the start order
computed by `_start_order` places every dependency strictly before each
unit that declares it, lists every configured unit exactly once, and is a
deterministic function of the input ordering of the unit set (the
embedding is a pure function of the configuration list, so equal inputs
give equal orders). -/
theorem C3_start_order_topological (m : Mgr) (hacy : AcyclicDeps m) :
    (∀ u d, depEdge m u d → u ∈ start_order m →
      d ∈ start_order m ∧
      List.indexOf d (start_order m) < List.indexOf u (start_order m)) ∧
    (start_order m).Nodup ∧
    (∀ k ∈ keys m, k ∈ start_order m) ∧
    (∀ m2, m = m2 → start_order m = start_order m2) := by
  obtain ⟨htopo, hnd, hkeys, _⟩ := start_order_sound m hacy
  refine ⟨?_, hnd, hkeys, fun m2 h => by rw [h]⟩
  intro u d hud hu
  have hp : (start_order m).take (List.indexOf u (start_order m) + 1)
      <+: start_order m := List.take_prefix _ _
  have humem : u ∈ (start_order m).take
      (List.indexOf u (start_order m) + 1) := mem_take_indexOf_succ hu
  have hd : d ∈ (start_order m).take
      (List.indexOf u (start_order m) + 1) := htopo u d hud _ hp humem
  have hdmem : d ∈ start_order m := List.take_subset _ _ hd
  have hlt : List.indexOf d (start_order m)
      < List.indexOf u (start_order m) + 1 := indexOf_lt_of_mem_take hd
  have hne : d ≠ u := by
    rintro rfl
    exact hacy d (Relation.TransGen.single hud)
  have hij : List.indexOf d (start_order m)
      ≠ List.indexOf u (start_order m) :=
    fun he => hne ((List.indexOf_inj hdmem hu).mp he)
  exact ⟨hdmem, by omega⟩

theorem cfg1_edges {u d : String} (h : depEdge cfg1 u d) :
    u = "b" ∧ d = "a" := by
  obtain ⟨svc, hl, hd⟩ := h
  simp only [cfg1, lookupSvc] at hl
  split_ifs at hl with h1 h2
  · injection hl with hsvc
    rw [← hsvc] at hd
    simp [svcA1] at hd
  · injection hl with hsvc
    rw [← hsvc] at hd
    simp only [svcB1, List.mem_singleton] at hd
    exact ⟨h2.symm, hd⟩

theorem cfg1_acyclic : AcyclicDeps cfg1 := by
  intro x hx
  obtain ⟨b, he, hbc⟩ := Relation.TransGen.head'_iff.mp hx
  obtain ⟨h1, h2⟩ := cfg1_edges he
  subst h2
  subst h1
  rcases hbc.cases_head with heq | ⟨c, he2, _⟩
  · exact absurd heq (by decide)
  · exact absurd (cfg1_edges he2).1 (by decide)

/-- Witness for C3 on the concrete two-unit configuration `cfg1`
(`b` depends on `a`): `a` is placed strictly before `b`. -/
theorem C3_witness :
    "a" ∈ start_order cfg1 ∧
    List.indexOf "a" (start_order cfg1)
      < List.indexOf "b" (start_order cfg1) :=
  (C3_start_order_topological cfg1 cfg1_acyclic).1 "b" "a"
    ⟨svcB1, by decide, by decide⟩ (by decide)

/-! # Lookup/update and field-preservation lemmas -/

theorem updateSvc_cons (k : String) (v : ManagedService)
    (rest : Mgr) (sid : String) (f : ManagedService → ManagedService) :
    updateSvc ((k, v) :: rest) sid f
      = (if k = sid then (k, f v) else (k, v)) :: updateSvc rest sid f := by
  simp only [updateSvc, List.map_cons]

theorem lookupSvc_cons (k : String) (v : ManagedService) (rest : Mgr)
    (x : String) :
    lookupSvc ((k, v) :: rest) x = if k = x then some v else lookupSvc rest x :=
  rfl

theorem lookup_update_self (m : Mgr) (sid : String)
    (f : ManagedService → ManagedService) :
    lookupSvc (updateSvc m sid f) sid = (lookupSvc m sid).map f := by
  induction m with
  | nil => rfl
  | cons e rest ih =>
    obtain ⟨k, v⟩ := e
    rw [updateSvc_cons]
    by_cases hk : k = sid
    · rw [if_pos hk, lookupSvc_cons, lookupSvc_cons, if_pos hk, if_pos hk]
      rfl
    · rw [if_neg hk, lookupSvc_cons, lookupSvc_cons, if_neg hk, if_neg hk]
      exact ih

theorem lookup_update_ne (m : Mgr) {sid x : String}
    (f : ManagedService → ManagedService) (h : x ≠ sid) :
    lookupSvc (updateSvc m sid f) x = lookupSvc m x := by
  induction m with
  | nil => rfl
  | cons e rest ih =>
    obtain ⟨k, v⟩ := e
    rw [updateSvc_cons]
    by_cases hk : k = sid
    · have hkx : ¬ k = x := fun hc => h (hc ▸ hk ▸ rfl)
      rw [if_pos hk, lookupSvc_cons, lookupSvc_cons, if_neg hkx, if_neg hkx]
      exact ih
    · rw [if_neg hk]
      by_cases hkx : k = x
      · rw [lookupSvc_cons, lookupSvc_cons, if_pos hkx, if_pos hkx]
      · rw [lookupSvc_cons, lookupSvc_cons, if_neg hkx, if_neg hkx]
        exact ih

theorem keys_update (m : Mgr) (sid : String)
    (f : ManagedService → ManagedService) :
    keys (updateSvc m sid f) = keys m := by
  induction m with
  | nil => rfl
  | cons e rest ih =>
    by_cases he : e.1 = sid <;>
      simp [updateSvc, keys, he] <;>
      simpa [updateSvc, keys] using ih

theorem nodup_entry_lookup {m : Mgr} (hnd : (keys m).Nodup)
    {x : String} {s : ManagedService} (he : (x, s) ∈ m) :
    lookupSvc m x = some s := by
  induction m with
  | nil => simp at he
  | cons e rest ih =>
    rcases List.mem_cons.mp he with rfl | hmem
    · simp [lookupSvc]
    · have hx : x ∈ keys rest := List.mem_map.mpr ⟨(x, s), hmem, rfl⟩
      have hne : e.1 ≠ x := by
        intro hc
        rw [keys, List.map_cons, List.nodup_cons] at hnd
        exact hnd.1 (hc ▸ hx)
      simp only [lookupSvc, if_neg hne]
      exact ih (by
        rw [keys, List.map_cons, List.nodup_cons] at hnd
        exact hnd.2) hmem

theorem state_snd_cases (s : ManagedService) :
    s.state.2 = s ∨ s.state.2 = { s with state_ := "stopped" } := by
  unfold ManagedService.state
  by_cases h1 : s.state_ = "starting" <;> by_cases h2 : s.procExited = true <;>
    simp [h1, h2]

theorem state_snd_process (s : ManagedService) :
    s.state.2.process = s.process := by
  rcases state_snd_cases s with h | h <;> rw [h]

theorem state_snd_name (s : ManagedService) : s.state.2.name = s.name := by
  rcases state_snd_cases s with h | h <;> rw [h]

theorem state_snd_depends (s : ManagedService) :
    s.state.2.depends_on = s.depends_on := by
  rcases state_snd_cases s with h | h <;> rw [h]

theorem state_snd_timeout (s : ManagedService) :
    s.state.2.startup_timeout = s.startup_timeout := by
  rcases state_snd_cases s with h | h <;> rw [h]

theorem state_snd_url (s : ManagedService) :
    s.state.2.health_url = s.health_url := by
  rcases state_snd_cases s with h | h <;> rw [h]

theorem state_fst_running_iff (s : ManagedService) :
    s.state.1 = "running" ↔
      (s.state_ = "running" ∧ s.procExited = false) := by
  unfold ManagedService.state
  split_ifs with h1 h2 <;> simp_all

theorem state_fst_of_running (s : ManagedService)
    (h : s.state.1 = "running") : s.state.2 = s := by
  obtain ⟨h1, h2⟩ := (state_fst_running_iff s).mp h
  unfold ManagedService.state
  rw [h1]
  simp [h2]

theorem whOutcome_true (s : ManagedService) : whOutcome s true = true := by
  unfold whOutcome
  split <;> rfl

theorem whApply_true_running (s : ManagedService) :
    (whApply s true).state_ = "running" ∧
    (whApply s true).process = s.process := by
  unfold whApply
  simp

theorem whApply_false_error (s : ManagedService) :
    (whApply s false).state_ = "error" ∧
    (whApply s false).process = s.process := by
  unfold whApply
  simp

theorem started_healthy_state (s : ManagedService) :
    (whApply s.startApply true).state.1 = "running" := by
  rw [(state_fst_running_iff _)]
  refine ⟨(whApply_true_running _).1, ?_⟩
  rw [ManagedService.procExited.eq_def]
  rw [(whApply_true_running s.startApply).2]
  rfl

theorem depsAgree_refl (m : Mgr) : DepsAgree m m := ⟨rfl, fun _ => rfl⟩

theorem depsAgree_trans {a b c : Mgr} (h1 : DepsAgree a b)
    (h2 : DepsAgree b c) : DepsAgree a c :=
  ⟨h1.1.trans h2.1, fun x => (h1.2 x).trans (h2.2 x)⟩

theorem depsAgree_update {m : Mgr} {sid : String}
    {f : ManagedService → ManagedService}
    (hf : ∀ s, lookupSvc m sid = some s → (f s).depends_on = s.depends_on) :
    DepsAgree m (updateSvc m sid f) := by
  refine ⟨(keys_update m sid f).symm, ?_⟩
  intro x
  by_cases hx : x = sid
  · subst hx
    rw [lookup_update_self]
    rcases hl : lookupSvc m x with _ | s
    · rfl
    · simp only [Option.map_some']
      rw [hf s hl]
  · rw [lookup_update_ne m f hx]

theorem depsAgree_depEdge {m m' : Mgr} (h : DepsAgree m m') (u d : String) :
    depEdge m u d ↔ depEdge m' u d := by
  have hx := h.2 u
  constructor
  · rintro ⟨s, hl, hd⟩
    rw [hl] at hx
    rcases hl' : lookupSvc m' u with _ | s'
    · rw [hl'] at hx; simp at hx
    · rw [hl'] at hx
      simp only [Option.map_some', Option.some.injEq] at hx
      exact ⟨s', hl', hx ▸ hd⟩
  · rintro ⟨s', hl', hd⟩
    rw [hl'] at hx
    rcases hl : lookupSvc m u with _ | s
    · rw [hl] at hx; simp at hx
    · rw [hl] at hx
      simp only [Option.map_some', Option.some.injEq] at hx
      exact ⟨s, hl, hx ▸ hd⟩

theorem depsAgree_acyclic {m m' : Mgr} (h : DepsAgree m m')
    (hacy : AcyclicDeps m) : AcyclicDeps m' := by
  intro x hx
  refine hacy x (Relation.TransGen.mono ?_ hx)
  intro a b hab
  exact (depsAgree_depEdge h a b).mpr hab

theorem depsAgree_closed {m m' : Mgr} (h : DepsAgree m m')
    (hnd : (keys m').Nodup) (hclosed : ClosedDeps m) : ClosedDeps m' := by
  intro e' he' d hd
  have hl' : lookupSvc m' e'.1 = some e'.2 := by
    obtain ⟨k, v⟩ := e'
    exact nodup_entry_lookup hnd he'
  have hx := h.2 e'.1
  rw [hl'] at hx
  rcases hl : lookupSvc m e'.1 with _ | s
  · rw [hl] at hx; simp at hx
  · rw [hl] at hx
    simp only [Option.map_some', Option.some.injEq] at hx
    have hmem := lookup_entry_mem hl
    have := hclosed (e'.1, s) hmem d (by rw [← hx] at hd; exact hd)
    rw [← h.1]
    exact this

theorem allIds_subset_keys {m : Mgr} (hclosed : ClosedDeps m) :
    ∀ x ∈ allIds m, x ∈ keys m := by
  intro x hx
  rcases List.mem_append.mp hx with h | h
  · exact h
  · rw [List.mem_flatten] at h
    obtain ⟨l, hl, hxl⟩ := h
    obtain ⟨e, he, rfl⟩ := List.mem_map.mp hl
    exact hclosed e he x hxl

theorem startApply_name (s : ManagedService) :
    s.startApply.name = s.name := rfl

theorem startApply_timeout (s : ManagedService) :
    s.startApply.startup_timeout = s.startup_timeout := rfl

theorem startApply_process (s : ManagedService) :
    s.startApply.process = some none := rfl

theorem startApply_depends (s : ManagedService) :
    s.startApply.depends_on = s.depends_on := rfl

theorem whApply_depends (s : ManagedService) (b : Bool) :
    (whApply s b).depends_on = s.depends_on := by
  unfold whApply
  by_cases hb : b = true <;> simp [hb]

theorem procAlive_eq_of_process {x y : ManagedService}
    (h : x.process = y.process) : x.procAlive = y.procAlive := by
  unfold ManagedService.procAlive
  rw [h]

theorem startAllGo_cons_running {orc : String → Bool} {m : Mgr}
    {sid : String} {rest : List String} {s : ManagedService}
    (hls : lookupSvc m sid = some s) (hr : s.state.1 = "running") :
    startAllGo orc m (sid :: rest)
      = startAllGo orc (updateSvc m sid (fun _ => s.state.2)) rest := by
  simp only [startAllGo, hls]
  rw [if_pos hr]

theorem startAllGo_cons_ok {orc : String → Bool} {m : Mgr}
    {sid : String} {rest : List String} {s : ManagedService}
    (hls : lookupSvc m sid = some s) (hnr : ¬ s.state.1 = "running")
    (halive : s.state.2.procAlive = false)
    (hok : whOutcome s.state.2.startApply (orc sid) = true) :
    startAllGo orc m (sid :: rest)
      = ⟨(startAllGo orc (updateSvc (updateSvc (updateSvc m sid
            (fun _ => s.state.2)) sid (fun _ => s.state.2.startApply)) sid
            (fun _ => whApply s.state.2.startApply true)) rest).err,
         (startAllGo orc (updateSvc (updateSvc (updateSvc m sid
            (fun _ => s.state.2)) sid (fun _ => s.state.2.startApply)) sid
            (fun _ => whApply s.state.2.startApply true)) rest).mgr,
         Ev.start sid :: Ev.waitH sid true
           :: (startAllGo orc (updateSvc (updateSvc (updateSvc m sid
                (fun _ => s.state.2)) sid (fun _ => s.state.2.startApply)) sid
                (fun _ => whApply s.state.2.startApply true)) rest).evs⟩ := by
  simp only [startAllGo, hls]
  rw [if_neg hnr]
  simp only [ManagedService.start, halive, Bool.false_eq_true, if_false, hok,
    if_true]

theorem startAllGo_cons_fail {orc : String → Bool} {m : Mgr}
    {sid : String} {rest : List String} {s : ManagedService}
    (hls : lookupSvc m sid = some s) (hnr : ¬ s.state.1 = "running")
    (halive : s.state.2.procAlive = false)
    (hok : whOutcome s.state.2.startApply (orc sid) = false) :
    startAllGo orc m (sid :: rest)
      = ⟨some (s.name ++ " failed to become healthy within "
            ++ toString s.startup_timeout ++ "s"),
         updateSvc (updateSvc (updateSvc m sid (fun _ => s.state.2)) sid
            (fun _ => s.state.2.startApply)) sid
            (fun _ => whApply s.state.2.startApply false),
         [Ev.start sid, Ev.waitH sid false]⟩ := by
  simp only [startAllGo, hls]
  rw [if_neg hnr]
  simp only [ManagedService.start, halive, Bool.false_eq_true, if_false, hok]
  have hname : s.state.2.startApply.name = s.name := by
    rw [startApply_name, state_snd_name]
  have htime : s.state.2.startApply.startup_timeout = s.startup_timeout := by
    rw [startApply_timeout, state_snd_timeout]
  rw [hname, htime]

theorem stopAllGo_cons {env : String → ManagedService.StopEnv} {m : Mgr}
    {sid : String} {rest : List String} {s : ManagedService}
    (hls : lookupSvc m sid = some s) :
    stopAllGo env m (sid :: rest)
      = ⟨(stopAllGo env (updateSvc m sid (fun _ => (s.stop (env sid)).1))
            rest).err,
         (stopAllGo env (updateSvc m sid (fun _ => (s.stop (env sid)).1))
            rest).mgr,
         Ev.stop sid :: (stopAllGo env (updateSvc m sid
            (fun _ => (s.stop (env sid)).1)) rest).evs⟩ := by
  simp only [stopAllGo, hls]

theorem startAllGo_happy :
    ∀ (ord : List String) (m : Mgr), ord.Nodup →
      (∀ x ∈ ord, ∃ s, lookupSvc m x = some s ∧ (s.state).1 ≠ "running" ∧
        s.procAlive = false) →
      (startAllGo (fun _ => true) m ord).err = none ∧
      (startAllGo (fun _ => true) m ord).evs
        = ord.flatMap (fun x => [Ev.start x, Ev.waitH x true]) ∧
      (∀ x ∈ ord, ∃ s, lookupSvc (startAllGo (fun _ => true) m ord).mgr x
          = some s ∧ (s.state).1 = "running") ∧
      (∀ x, x ∉ ord →
        lookupSvc (startAllGo (fun _ => true) m ord).mgr x = lookupSvc m x) ∧
      DepsAgree m (startAllGo (fun _ => true) m ord).mgr := by
  intro ord
  induction ord with
  | nil =>
    intro m _ _
    exact ⟨rfl, rfl, by simp, fun x _ => rfl, depsAgree_refl m⟩
  | cons sid rest ih =>
    intro m hnd hx
    obtain ⟨s, hls, hsnr, hsna⟩ := hx sid (by simp)
    have halive2 : s.state.2.procAlive = false := by
      rw [procAlive_eq_of_process (state_snd_process s)]
      exact hsna
    have hok : whOutcome s.state.2.startApply ((fun _ => true) sid) = true :=
      whOutcome_true _
    rw [startAllGo_cons_ok hls hsnr halive2 hok]
    have hndr : rest.Nodup := (List.nodup_cons.mp hnd).2
    have hsid_rest : sid ∉ rest := (List.nodup_cons.mp hnd).1
    have hlk3 : ∀ x, x ≠ sid →
        lookupSvc (updateSvc (updateSvc (updateSvc m sid
          (fun _ => s.state.2)) sid (fun _ => s.state.2.startApply)) sid
          (fun _ => whApply s.state.2.startApply true)) x
        = lookupSvc m x := by
      intro x hxne
      rw [lookup_update_ne _ _ hxne, lookup_update_ne _ _ hxne,
        lookup_update_ne _ _ hxne]
    have hlk3sid : lookupSvc (updateSvc (updateSvc (updateSvc m sid
          (fun _ => s.state.2)) sid (fun _ => s.state.2.startApply)) sid
          (fun _ => whApply s.state.2.startApply true)) sid
        = some (whApply s.state.2.startApply true) := by
      rw [lookup_update_self]
      rw [lookup_update_self]
      rw [lookup_update_self]
      rw [hls]
      rfl
    have hxr : ∀ x ∈ rest, ∃ s2, lookupSvc (updateSvc (updateSvc (updateSvc m
        sid (fun _ => s.state.2)) sid (fun _ => s.state.2.startApply)) sid
        (fun _ => whApply s.state.2.startApply true)) x = some s2 ∧
        (s2.state).1 ≠ "running" ∧ s2.procAlive = false := by
      intro x hxrest
      have hxne : x ≠ sid := fun hc => hsid_rest (hc ▸ hxrest)
      rw [hlk3 x hxne]
      exact hx x (List.mem_cons_of_mem _ hxrest)
    obtain ⟨ihe, ihevs, ihrun, ihfix, ihagree⟩ := ih _ hndr hxr
    refine ⟨ihe, ?_, ?_, ?_, ?_⟩
    · simp only [List.flatMap_cons]
      rw [ihevs]
      rfl
    · intro x hxmem
      rcases List.mem_cons.mp hxmem with rfl | hxr2
      · refine ⟨whApply s.state.2.startApply true, ?_, ?_⟩
        · rw [ihfix x hsid_rest, hlk3sid]
        · exact started_healthy_state s.state.2
      · exact ihrun x hxr2
    · intro x hxnot
      have hxne : x ≠ sid := fun hc => hxnot (hc ▸ List.mem_cons_self sid rest)
      have hxnr : x ∉ rest := fun hc => hxnot (List.mem_cons_of_mem _ hc)
      rw [ihfix x hxnr, hlk3 x hxne]
    · refine depsAgree_trans ?_ ihagree
      refine depsAgree_trans (depsAgree_update ?_)
        (depsAgree_trans (depsAgree_update ?_) (depsAgree_update ?_))
      · intro s2 hs2
        rw [hls] at hs2
        injection hs2 with hs2
        rw [← hs2, state_snd_depends]
      · intro s2 hs2
        rw [lookup_update_self, hls] at hs2
        injection hs2 with hs2
        rw [← hs2, startApply_depends, state_snd_depends]
      · intro s2 hs2
        rw [lookup_update_self, lookup_update_self, hls] at hs2
        injection hs2 with hs2
        rw [← hs2, whApply_depends, startApply_depends, state_snd_depends]

theorem stop_procAlive (s : ManagedService) (env : ManagedService.StopEnv)
    (hw : env.waitCompletes = true) : (s.stop env).1.procAlive = false := by
  unfold ManagedService.stop
  rcases hp : s.process with _ | rc
  · simp [ManagedService.procAlive, hp]
  · rcases rc with _ | v
    · simp [hw, ManagedService.procAlive]
    · simp [ManagedService.procAlive, hp]

theorem stop_depends (s : ManagedService) (env : ManagedService.StopEnv) :
    (s.stop env).1.depends_on = s.depends_on := by
  unfold ManagedService.stop
  rcases hp : s.process with _ | rc
  · simp
  · rcases rc with _ | v
    · by_cases hw : env.waitCompletes <;> simp [hw]
    · simp

theorem state_fst_ne_running_of_stopped {s : ManagedService}
    (h : s.state_ = "stopped") : (s.state).1 ≠ "running" := by
  intro hc
  obtain ⟨h1, _⟩ := (state_fst_running_iff s).mp hc
  rw [h] at h1
  exact absurd h1 (by decide)

theorem stopAllGo_run (env : String → ManagedService.StopEnv) :
    ∀ (ord : List String) (m : Mgr), ord.Nodup →
      (∀ x ∈ ord, x ∈ keys m) →
      (stopAllGo env m ord).err = none ∧
      (stopAllGo env m ord).evs = ord.map Ev.stop ∧
      (∀ x ∈ ord, ∃ s, lookupSvc (stopAllGo env m ord).mgr x = some s ∧
        s.state_ = "stopped" ∧
        ((env x).waitCompletes = true → s.procAlive = false)) ∧
      (∀ x, x ∉ ord → lookupSvc (stopAllGo env m ord).mgr x = lookupSvc m x) ∧
      DepsAgree m (stopAllGo env m ord).mgr := by
  intro ord
  induction ord with
  | nil =>
    intro m _ _
    exact ⟨rfl, rfl, by simp, fun x _ => rfl, depsAgree_refl m⟩
  | cons sid rest ih =>
    intro m hnd hmem
    obtain ⟨s, hls⟩ := lookup_of_mem_keys (hmem sid (by simp))
    rw [stopAllGo_cons hls]
    have hndr : rest.Nodup := (List.nodup_cons.mp hnd).2
    have hsid_rest : sid ∉ rest := (List.nodup_cons.mp hnd).1
    have hmemr : ∀ x ∈ rest,
        x ∈ keys (updateSvc m sid (fun _ => (s.stop (env sid)).1)) := by
      intro x hxr
      rw [keys_update]
      exact hmem x (List.mem_cons_of_mem _ hxr)
    obtain ⟨ihe, ihevs, ihstop, ihfix, ihagree⟩ := ih _ hndr hmemr
    refine ⟨ihe, ?_, ?_, ?_, ?_⟩
    · simp only [List.map_cons]
      rw [ihevs]
    · intro x hxmem
      rcases List.mem_cons.mp hxmem with rfl | hxr2
      · refine ⟨(s.stop (env x)).1, ?_, stop_state_stopped s (env x),
          fun hw => stop_procAlive s (env x) hw⟩
        rw [ihfix x hsid_rest, lookup_update_self, hls]
        rfl
      · exact ihstop x hxr2
    · intro x hxnot
      have hxne : x ≠ sid := fun hc => hxnot (hc ▸ List.mem_cons_self sid rest)
      have hxnr : x ∉ rest := fun hc => hxnot (List.mem_cons_of_mem _ hc)
      rw [ihfix x hxnr, lookup_update_ne _ _ hxne]
    · refine depsAgree_trans (depsAgree_update ?_) ihagree
      intro s2 hs2
      rw [hls] at hs2
      injection hs2 with hs2
      rw [← hs2]
      exact stop_depends s (env sid)

theorem startedIds_flatMap (ord : List String) :
    startedIds (ord.flatMap (fun x => [Ev.start x, Ev.waitH x true])) = ord := by
  induction ord with
  | nil => rfl
  | cons a l ih =>
    simp only [List.flatMap_cons, startedIds, List.filterMap_append]
    unfold startedIds at ih
    rw [ih]
    rfl

theorem stoppedIds_map (l : List String) :
    stoppedIds (l.map Ev.stop) = l := by
  induction l with
  | nil => rfl
  | cons a l ih =>
    simp only [List.map_cons, stoppedIds, List.filterMap_cons]
    unfold stoppedIds at ih
    rw [ih]

theorem cfg1_lookup_cases {x : String} {s : ManagedService}
    (h : lookupSvc cfg1 x = some s) : s = svcA1 ∨ s = svcB1 := by
  simp only [cfg1, lookupSvc] at h
  split_ifs at h
  · exact Or.inl (by injection h with h2; exact h2.symm)
  · exact Or.inr (by injection h with h2; exact h2.symm)

theorem cfg1_closed : ClosedDeps cfg1 := by
  intro e he d hd
  rcases List.mem_cons.mp he with rfl | he2
  · exact absurd hd (List.not_mem_nil d)
  · rcases List.mem_cons.mp he2 with rfl | he3
    · have hda : d = "a" := by simpa [svcB1] using hd
      subst hda
      decide
    · simp at he3

theorem cfg1_stopped : ∀ x s, lookupSvc cfg1 x = some s →
    (s.state).1 ≠ "running" ∧ s.procAlive = false := by
  intro x s h
  rcases cfg1_lookup_cases h with rfl | rfl
  · exact ⟨by decide, by decide⟩
  · exact ⟨by decide, by decide⟩

/-! # Claim C4 -/

/-- C4: `stop_all` stops units in exactly the reverse of the order
`start_all` starts them: from a fully stopped fleet whose health waits all
succeed, the ids `start_all` starts are exactly the computed start order,
and the ids `stop_all` stops are exactly the reverse of that order (and
hence of the started sequence). -/
theorem C4_stop_reverse_of_start (sm : ServiceManager)
    (env : String → ManagedService.StopEnv)
    (hacy : AcyclicDeps sm.services) (hclosed : ClosedDeps sm.services)
    (hflag : sm.starting_ = false)
    (hstopped : ∀ x s, lookupSvc sm.services x = some s →
      (s.state).1 ≠ "running" ∧ s.procAlive = false) :
    startedIds (start_all (fun _ => true) sm).evs
      = start_order sm.services ∧
    stoppedIds (stop_all env sm).evs = (start_order sm.services).reverse ∧
    stoppedIds (stop_all env sm).evs
      = (startedIds (start_all (fun _ => true) sm).evs).reverse := by
  obtain ⟨htopo, hnd, hkeys, hsub⟩ := start_order_sound sm.services hacy
  have hordmem : ∀ x ∈ start_order sm.services, x ∈ keys sm.services :=
    fun x hx => allIds_subset_keys hclosed x (hsub x hx)
  have h1 : startedIds (start_all (fun _ => true) sm).evs
      = start_order sm.services := by
    simp only [start_all, hflag, Bool.false_eq_true, if_false]
    obtain ⟨_, hevs, _, _, _⟩ := startAllGo_happy (start_order sm.services)
      sm.services hnd (fun x hx => by
        obtain ⟨s, hs⟩ := lookup_of_mem_keys (hordmem x hx)
        exact ⟨s, hs, (hstopped x s hs).1, (hstopped x s hs).2⟩)
    rw [hevs, startedIds_flatMap]
  have h2 : stoppedIds (stop_all env sm).evs
      = (start_order sm.services).reverse := by
    simp only [stop_all]
    obtain ⟨_, hevs, _, _, _⟩ := stopAllGo_run env
      (start_order sm.services).reverse sm.services
      (List.nodup_reverse.mpr hnd)
      (fun x hx => hordmem x (List.mem_reverse.mp hx))
    rw [hevs, stoppedIds_map]
  exact ⟨h1, h2, by rw [h2, h1]⟩

/-- Witness for C4 on the concrete configuration `cfg1`: the stop order is
the reverse of the start order. -/
theorem C4_witness :
    stoppedIds (stop_all envOk ⟨cfg1, false⟩).evs
      = (startedIds (start_all (fun _ => true) ⟨cfg1, false⟩).evs).reverse :=
  (C4_stop_reverse_of_start ⟨cfg1, false⟩ envOk cfg1_acyclic cfg1_closed
    rfl cfg1_stopped).2.2

theorem healthyBefore_append {m0 : Mgr} {evs extra : List Ev} {d : String}
    (h : healthyBefore m0 evs d) : healthyBefore m0 (evs ++ extra) d := by
  rcases h with h | h
  · exact Or.inl h
  · exact Or.inr (List.mem_append_left _ h)

theorem cons_prefix_of {α : Type} {p l : List α} (a : α) (h : p <+: l) :
    (a :: p) <+: (a :: l) := by
  obtain ⟨t, ht⟩ := h
  exact ⟨t, by rw [List.cons_append, ht]⟩

theorem startAllGo_sound (m0 : Mgr) (orc : String → Bool) (hwf : WFMgr m0) :
    ∀ (ord : List String) (m : Mgr) (evs0 : List Ev),
      ord.Nodup →
      (∀ x ∈ ord, (lookupSvc m0 x).isSome = true) →
      (∀ x ∈ ord, lookupSvc m x = lookupSvc m0 x) →
      (∀ u d, depEdge m0 u d → u ∈ ord →
        ((∃ s, lookupSvc m d = some s ∧ (s.state).1 = "running" ∧
            healthyBefore m0 evs0 d) ∨
         (d ≠ u ∧ ∀ p, p <+: ord → u ∈ p → d ∈ p))) →
      (∀ pre u post, (startAllGo orc m ord).evs = pre ++ Ev.start u :: post →
        ∀ d, depEdge m0 u d → healthyBefore m0 (evs0 ++ pre) d) ∧
      (∀ x, Ev.waitH x true ∈ (startAllGo orc m ord).evs →
        ∃ s, lookupSvc (startAllGo orc m ord).mgr x = some s ∧
          (s.state).1 = "running") ∧
      ((startAllGo orc m ord).err = none ∨
        ∃ u s0, u ∈ ord ∧ lookupSvc m0 u = some s0 ∧
          (startAllGo orc m ord).err = some (s0.name
            ++ " failed to become healthy within "
            ++ toString s0.startup_timeout ++ "s")) ∧
      (∀ x, Ev.start x ∈ (startAllGo orc m ord).evs →
        ∀ s0, lookupSvc m0 x = some s0 → (s0.state).1 ≠ "running") ∧
      (∀ x, x ∉ ord →
        lookupSvc (startAllGo orc m ord).mgr x = lookupSvc m x) := by
  intro ord
  induction ord with
  | nil =>
    intro m evs0 _ _ _ _
    refine ⟨?_, by simp [startAllGo], Or.inl rfl, by simp [startAllGo],
      fun x _ => rfl⟩
    intro pre u post habs
    exact absurd habs.symm (by simp [startAllGo])
  | cons sid rest ih =>
    intro m evs0 hnd hmem0 hrest hsat
    have hndr : rest.Nodup := (List.nodup_cons.mp hnd).2
    have hsid_rest : sid ∉ rest := (List.nodup_cons.mp hnd).1
    obtain ⟨s0, hl0⟩ : ∃ s0, lookupSvc m0 sid = some s0 := by
      have := hmem0 sid (by simp)
      rcases h : lookupSvc m0 sid with _ | s0
      · rw [h] at this; simp at this
      · exact ⟨s0, rfl⟩
    have hls : lookupSvc m sid = some s0 := by
      rw [hrest sid (by simp), hl0]
    by_cases hr : (s0.state).1 = "running"
    · -- unit already running: skipped
      rw [startAllGo_cons_running hls hr]
      have heq : s0.state.2 = s0 := state_fst_of_running s0 hr
      have hlk1 : ∀ x, lookupSvc (updateSvc m sid (fun _ => s0.state.2)) x
          = lookupSvc m x := by
        intro x
        by_cases hx : x = sid
        · subst hx
          rw [lookup_update_self, hls, heq]
          rfl
        · exact lookup_update_ne m _ hx
      have ihr := ih (updateSvc m sid (fun _ => s0.state.2)) evs0 hndr
        (fun x hx => hmem0 x (List.mem_cons_of_mem _ hx))
        (fun x hx => by
          rw [hlk1 x]; exact hrest x (List.mem_cons_of_mem _ hx))
        (fun u d hud hu => by
          by_cases hdsid : d = sid
          · subst hdsid
            exact Or.inl ⟨s0, by rw [hlk1 d]; exact hls, hr,
              Or.inl ⟨s0, hl0, hr⟩⟩
          · rcases hsat u d hud (List.mem_cons_of_mem _ hu) with
              ⟨s2, hs2, hrun2, hb2⟩ | ⟨hne, hpp⟩
            · exact Or.inl ⟨s2, by rw [hlk1 d]; exact hs2, hrun2, hb2⟩
            · refine Or.inr ⟨hne, ?_⟩
              intro p hp hup
              have := hpp (sid :: p) (cons_prefix_of sid hp)
                (List.mem_cons_of_mem _ hup)
              rcases List.mem_cons.mp this with h | h
              · exact absurd h hdsid
              · exact h)
      obtain ⟨K1, K2, K3, K4, K5⟩ := ihr
      refine ⟨K1, K2, ?_, K4, ?_⟩
      · rcases K3 with h | ⟨u, su, hu, hlu, he⟩
        · exact Or.inl h
        · exact Or.inr ⟨u, su, List.mem_cons_of_mem _ hu, hlu, he⟩
      · intro x hx
        have hxr : x ∉ rest := fun hc => hx (List.mem_cons_of_mem _ hc)
        rw [K5 x hxr, hlk1 x]
    · -- unit not running: started
      have halive0 : s0.procAlive = false := by
        by_cases h : s0.procAlive = true
        · exact absurd (hwf sid s0 hl0 h) hr
        · simpa using h
      have halive2 : s0.state.2.procAlive = false := by
        rw [procAlive_eq_of_process (state_snd_process s0)]
        exact halive0
      have hlk3 : ∀ x, x ≠ sid →
          lookupSvc (updateSvc (updateSvc (updateSvc m sid
            (fun _ => s0.state.2)) sid (fun _ => s0.state.2.startApply)) sid
            (fun _ => whApply s0.state.2.startApply
              (whOutcome s0.state.2.startApply (orc sid)))) x
          = lookupSvc m x := by
        intro x hxne
        rw [lookup_update_ne _ _ hxne, lookup_update_ne _ _ hxne,
          lookup_update_ne _ _ hxne]
      by_cases hok : whOutcome s0.state.2.startApply (orc sid) = true
      · rw [startAllGo_cons_ok hls hr halive2 hok]
        have hlk3' : ∀ x, x ≠ sid →
            lookupSvc (updateSvc (updateSvc (updateSvc m sid
              (fun _ => s0.state.2)) sid (fun _ => s0.state.2.startApply)) sid
              (fun _ => whApply s0.state.2.startApply true)) x
            = lookupSvc m x := by
          intro x hxne
          rw [lookup_update_ne _ _ hxne, lookup_update_ne _ _ hxne,
            lookup_update_ne _ _ hxne]
        have hlk3sid : lookupSvc (updateSvc (updateSvc (updateSvc m sid
              (fun _ => s0.state.2)) sid (fun _ => s0.state.2.startApply)) sid
              (fun _ => whApply s0.state.2.startApply true)) sid
            = some (whApply s0.state.2.startApply true) := by
          rw [lookup_update_self, lookup_update_self, lookup_update_self, hls]
          rfl
        have ihr := ih (updateSvc (updateSvc (updateSvc m sid
            (fun _ => s0.state.2)) sid (fun _ => s0.state.2.startApply)) sid
            (fun _ => whApply s0.state.2.startApply true))
          (evs0 ++ [Ev.start sid, Ev.waitH sid true]) hndr
          (fun x hx => hmem0 x (List.mem_cons_of_mem _ hx))
          (fun x hx => by
            have hxne : x ≠ sid := fun hc => hsid_rest (hc ▸ hx)
            rw [hlk3' x hxne]
            exact hrest x (List.mem_cons_of_mem _ hx))
          (fun u d hud hu => by
            by_cases hdsid : d = sid
            · refine Or.inl ⟨whApply s0.state.2.startApply true, ?_,
                started_healthy_state _, Or.inr ?_⟩
              · rw [hdsid]
                exact hlk3sid
              · rw [hdsid]
                exact List.mem_append_right _ (by simp)
            · rcases hsat u d hud (List.mem_cons_of_mem _ hu) with
                ⟨s2, hs2, hrun2, hb2⟩ | ⟨hne, hpp⟩
              · exact Or.inl ⟨s2, by rw [hlk3' d hdsid]; exact hs2, hrun2,
                  healthyBefore_append hb2⟩
              · refine Or.inr ⟨hne, ?_⟩
                intro p hp hup
                have := hpp (sid :: p) (cons_prefix_of sid hp)
                  (List.mem_cons_of_mem _ hup)
                rcases List.mem_cons.mp this with h | h
                · exact absurd h hdsid
                · exact h)
        obtain ⟨K1, K2, K3, K4, K5⟩ := ihr
        refine ⟨?_, ?_, ?_, ?_, ?_⟩
        · intro pre u post h d hud
          rcases pre with _ | ⟨e1, pre1⟩
          · simp only [List.nil_append, List.cons.injEq] at h
            have husid : u = sid := by
              have := h.1
              injection this with h2
              exact h2.symm
            subst husid
            rw [List.append_nil]
            rcases hsat u d hud (by simp) with ⟨s2, _, _, hb⟩ | ⟨hne, hpp⟩
            · exact hb
            · have hd1 : d ∈ [u] := hpp [u] ⟨rest, rfl⟩ (by simp)
              rw [List.mem_singleton] at hd1
              exact absurd hd1 hne
          · rcases pre1 with _ | ⟨e2, pre2⟩
            · simp only [List.cons_append, List.nil_append,
                List.cons.injEq] at h
              exact absurd h.2.1 (by simp)
            · simp only [List.cons_append, List.cons.injEq] at h
              have h3 : (startAllGo orc (updateSvc (updateSvc (updateSvc m sid
                  (fun _ => s0.state.2)) sid
                  (fun _ => s0.state.2.startApply)) sid
                  (fun _ => whApply s0.state.2.startApply true)) rest).evs
                  = pre2 ++ Ev.start u :: post := h.2.2
              have h4 := K1 pre2 u post h3 d hud
              rw [← h.1, ← h.2.1]
              rwa [List.append_assoc] at h4
        · intro x hx
          rcases List.mem_cons.mp hx with h | hx2
          · exact absurd h (by simp)
          · rcases List.mem_cons.mp hx2 with h | hx3
            · have hxsid : x = sid := by
                injection h with h1 h2
              subst hxsid
              refine ⟨whApply s0.state.2.startApply true, ?_,
                started_healthy_state _⟩
              rw [K5 x hsid_rest]
              exact hlk3sid
            · exact K2 x hx3
        · rcases K3 with h | ⟨u, su, hu, hlu, he⟩
          · exact Or.inl h
          · exact Or.inr ⟨u, su, List.mem_cons_of_mem _ hu, hlu, he⟩
        · intro x hx s0' hs0'
          rcases List.mem_cons.mp hx with h | hx2
          · have hxsid : x = sid := by injection h with h1
            subst hxsid
            rw [hl0] at hs0'
            injection hs0' with hs0'
            rw [← hs0']
            exact hr
          · rcases List.mem_cons.mp hx2 with h | hx3
            · exact absurd h (by simp)
            · exact K4 x hx3 s0' hs0'
        · intro x hx
          have hxne : x ≠ sid :=
            fun hc => hx (hc ▸ List.mem_cons_self sid rest)
          have hxnr : x ∉ rest := fun hc => hx (List.mem_cons_of_mem _ hc)
          rw [K5 x hxnr, hlk3' x hxne]
      · have hokf : whOutcome s0.state.2.startApply (orc sid) = false := by
          rcases Bool.eq_false_or_eq_true
            (whOutcome s0.state.2.startApply (orc sid)) with h | h
          · exact absurd h hok
          · exact h
        rw [startAllGo_cons_fail hls hr halive2 hokf]
        refine ⟨?_, ?_, ?_, ?_, ?_⟩
        · intro pre u post h d hud
          rcases pre with _ | ⟨e1, pre1⟩
          · simp only [List.nil_append, List.cons.injEq] at h
            have husid : u = sid := by
              have := h.1
              injection this with h2
              exact h2.symm
            subst husid
            rw [List.append_nil]
            rcases hsat u d hud (by simp) with ⟨s2, _, _, hb⟩ | ⟨hne, hpp⟩
            · exact hb
            · have hd1 : d ∈ [u] := hpp [u] ⟨rest, rfl⟩ (by simp)
              rw [List.mem_singleton] at hd1
              exact absurd hd1 hne
          · rcases pre1 with _ | ⟨e2, pre2⟩
            · simp only [List.cons_append, List.nil_append,
                List.cons.injEq] at h
              exact absurd h.2.1 (by simp)
            · simp only [List.cons_append, List.cons.injEq] at h
              exact absurd h.2.2 (by simp)
        · intro x hx
          rcases List.mem_cons.mp hx with h | hx2
          · exact absurd h (by simp)
          · rcases List.mem_cons.mp hx2 with h | hx3
            · exact absurd h (by simp)
            · simp at hx3
        · exact Or.inr ⟨sid, s0, by simp, hl0, rfl⟩
        · intro x hx s0' hs0'
          rcases List.mem_cons.mp hx with h | hx2
          · have hxsid : x = sid := by injection h with h1
            subst hxsid
            rw [hl0] at hs0'
            injection hs0' with hs0'
            rw [← hs0']
            exact hr
          · rcases List.mem_cons.mp hx2 with h | hx3
            · exact absurd h (by simp)
            · simp at hx3
        · intro x hx
          have hxne : x ≠ sid :=
            fun hc => hx (hc ▸ List.mem_cons_self sid rest)
          rw [lookup_update_ne _ _ hxne, lookup_update_ne _ _ hxne,
            lookup_update_ne _ _ hxne]

/-! # Claim C2 -/

/-- C2: `start_all` is single-flight — a call while `_starting` is set
fails with the exact `"Already starting"` error and touches nothing;
otherwise the flag is released at the end, units already `"running"` are
skipped (no start event for them), the first unit that fails to become
healthy aborts the sequence with an error naming that unit and its
configured timeout, and every unit whose health wait succeeded earlier in
the sequence is still `"running"` afterwards (no rollback). -/
theorem C2_start_all_single_flight :
    (∀ (orc : String → Bool) (sm : ServiceManager), sm.starting_ = true →
      start_all orc sm = ⟨some "Already starting", sm, []⟩) ∧
    (∀ (orc : String → Bool) (sm : ServiceManager), sm.starting_ = false →
      AcyclicDeps sm.services → ClosedDeps sm.services →
      WFMgr sm.services →
      (start_all orc sm).sm.starting_ = false ∧
      (∀ x s0, lookupSvc sm.services x = some s0 →
        (s0.state).1 = "running" → Ev.start x ∉ (start_all orc sm).evs) ∧
      ((start_all orc sm).err = none ∨
        ∃ u s0, lookupSvc sm.services u = some s0 ∧
          (start_all orc sm).err = some (s0.name
            ++ " failed to become healthy within "
            ++ toString s0.startup_timeout ++ "s")) ∧
      (∀ x, Ev.waitH x true ∈ (start_all orc sm).evs →
        ∃ s, lookupSvc (start_all orc sm).sm.services x = some s ∧
          (s.state).1 = "running")) := by
  constructor
  · intro orc sm h
    simp [start_all, h]
  · intro orc sm hflag hacy hclosed hwf
    obtain ⟨htopo, hnd, hkeys, hsub⟩ := start_order_sound sm.services hacy
    have hordmem : ∀ x ∈ start_order sm.services, x ∈ keys sm.services :=
      fun x hx => allIds_subset_keys hclosed x (hsub x hx)
    have hmem0 : ∀ x ∈ start_order sm.services,
        (lookupSvc sm.services x).isSome = true := by
      intro x hx
      obtain ⟨s, hs⟩ := lookup_of_mem_keys (hordmem x hx)
      rw [hs]
      rfl
    have hsat : ∀ u d, depEdge sm.services u d →
        u ∈ start_order sm.services →
        ((∃ s, lookupSvc sm.services d = some s ∧ (s.state).1 = "running" ∧
            healthyBefore sm.services [] d) ∨
         (d ≠ u ∧ ∀ p, p <+: start_order sm.services → u ∈ p → d ∈ p)) := by
      intro u d hud hu
      refine Or.inr ⟨?_, fun p hp hup => htopo u d hud p hp hup⟩
      rintro rfl
      exact hacy d (Relation.TransGen.single hud)
    obtain ⟨K1, K2, K3, K4, K5⟩ := startAllGo_sound sm.services orc hwf
      (start_order sm.services) sm.services [] hnd hmem0 (fun x _ => rfl) hsat
    simp only [start_all, hflag, Bool.false_eq_true, if_false]
    refine ⟨by trivial, ?_, ?_, K2⟩
    · intro x s0 hls hrun hmemev
      exact (K4 x hmemev s0 hls) hrun
    · rcases K3 with h | ⟨u, s0, _, hl, he⟩
      · exact Or.inl h
      · exact Or.inr ⟨u, s0, hl, he⟩

theorem cfg1_wf : WFMgr cfg1 := by
  intro x s h hal
  rcases cfg1_lookup_cases h with rfl | rfl
  · exact absurd hal (by decide)
  · exact absurd hal (by decide)

/-- Witness for C2 on `cfg1`: the flag rejects re-entry; a run with a
failing health oracle reports the faulty unit with its timeout, and the
flag is released. -/
theorem C2_witness :
    start_all orcFail ⟨cfg1, true⟩
      = ⟨some "Already starting", ⟨cfg1, true⟩, []⟩ ∧
    ((start_all orcFail ⟨cfg1, false⟩).sm.starting_ = false ∧
      (∀ x s0, lookupSvc cfg1 x = some s0 →
        (s0.state).1 = "running" →
        Ev.start x ∉ (start_all orcFail ⟨cfg1, false⟩).evs) ∧
      ((start_all orcFail ⟨cfg1, false⟩).err = none ∨
        ∃ u s0, lookupSvc cfg1 u = some s0 ∧
          (start_all orcFail ⟨cfg1, false⟩).err = some (s0.name
            ++ " failed to become healthy within "
            ++ toString s0.startup_timeout ++ "s")) ∧
      (∀ x, Ev.waitH x true ∈ (start_all orcFail ⟨cfg1, false⟩).evs →
        ∃ s, lookupSvc (start_all orcFail ⟨cfg1, false⟩).sm.services x
            = some s ∧ (s.state).1 = "running")) :=
  ⟨C2_start_all_single_flight.1 orcFail ⟨cfg1, true⟩ rfl,
   C2_start_all_single_flight.2 orcFail ⟨cfg1, false⟩ rfl cfg1_acyclic
     cfg1_closed cfg1_wf⟩

/-! # Claim C1 -/

theorem startDepsGo_skip_none {orc : String → Bool} {m : Mgr}
    {depId : String} {rest : List String}
    (h : lookupSvc m depId = none) :
    startDepsGo orc m (depId :: rest) = startDepsGo orc m rest := by
  simp only [startDepsGo, h]

theorem startDepsGo_paired (orc : String → Bool) :
    ∀ (ds : List String) (m : Mgr) (x : String),
      Ev.start x ∈ (startDepsGo orc m ds).evs →
      ∃ b, Ev.waitH x b ∈ (startDepsGo orc m ds).evs := by
  intro ds
  induction ds with
  | nil =>
    intro m x hx
    simp [startDepsGo] at hx
  | cons depId rest ihds =>
    intro m x hx
    rcases hld : lookupSvc m depId with _ | dep
    · rw [startDepsGo_skip_none hld] at hx ⊢
      exact ihds m x hx
    · simp only [startDepsGo, hld] at hx ⊢
      by_cases hr : dep.state.1 = "running"
      · rw [if_pos hr] at hx ⊢
        exact ihds _ x hx
      · rw [if_neg hr] at hx ⊢
        rcases halv : dep.state.2.procAlive with _ | _
        · simp only [ManagedService.start, halv, Bool.false_eq_true,
            if_false] at hx ⊢
          rcases List.mem_cons.mp hx with h | hx2
          · have hxd : x = depId := by injection h with h1
            subst hxd
            exact ⟨whOutcome dep.state.2.startApply (orc x),
              by simp⟩
          · rcases List.mem_cons.mp hx2 with h | hx3
            · exact absurd h (by simp)
            · obtain ⟨b, hb⟩ := ihds _ x hx3
              exact ⟨b, by simp [hb]⟩
        · simp only [ManagedService.start, halv, if_true] at hx ⊢
          simp at hx

theorem start_service_shape (orc : String → Bool) (m : Mgr) (sid : String)
    (hok : (start_service orc m sid).err = none) :
    ∃ devs b, (start_service orc m sid).evs
        = devs ++ [Ev.start sid, Ev.waitH sid b] ∧
      (∀ x, Ev.start x ∈ devs → ∃ c, Ev.waitH x c ∈ devs) := by
  rcases hls : lookupSvc m sid with _ | svc
  · simp only [start_service, hls] at hok
    exact absurd hok (by simp)
  · simp only [start_service, hls] at hok ⊢
    rcases herr : (startDepsGo orc m svc.depends_on).err with _ | e
    · simp only [herr] at hok ⊢
      rcases hst : ((lookupSvc (startDepsGo orc m svc.depends_on).mgr
          sid).getD svc).start with e2 | svc2
      · simp only [hst] at hok
        exact absurd hok (by simp)
      · simp only [hst] at hok ⊢
        refine ⟨(startDepsGo orc m svc.depends_on).evs, _, rfl, ?_⟩
        intro x hx
        exact startDepsGo_paired orc svc.depends_on m x hx
    · simp only [herr] at hok
      exact absurd hok (by simp)

/-- C1 counterexample: in `cfg1` (`b` depends on `a`, `a` has a health
URL), with an oracle under which `a` never becomes healthy,
`start_service "b"` starts `a`, observes its health wait *fail* — and
starts `b` anyway: the run does not respect the invariant that a unit is
only started after all its dependencies have reported healthy (the
boolean result of `dep.wait_healthy()` is discarded at line 264). -/
theorem C1_counterexample :
    (start_service orcFail cfg1 "b").evs
      = [Ev.start "a", Ev.waitH "a" false, Ev.start "b", Ev.waitH "b" true] ∧
    ¬ RespectsDeps cfg1 (start_service orcFail cfg1 "b").evs := by
  have hevs : (start_service orcFail cfg1 "b").evs
      = [Ev.start "a", Ev.waitH "a" false, Ev.start "b",
         Ev.waitH "b" true] := by decide
  refine ⟨hevs, ?_⟩
  intro hresp
  have hdep : depEdge cfg1 "b" "a" := ⟨svcB1, by decide, by decide⟩
  have hb := hresp [Ev.start "a", Ev.waitH "a" false] "b" [Ev.waitH "b" true]
    (by rw [hevs]; rfl) "a" hdep
  rcases hb with ⟨s0, hs0, hrun⟩ | hmem
  · rcases cfg1_lookup_cases hs0 with rfl | rfl
    · exact absurd hrun (by decide)
    · exact absurd hrun (by decide)
  · exact absurd hmem (by decide)

/-- C1 amended: within `start_all`, a unit is never started before every
one of its declared dependencies has reported healthy (already running
initially, or a successful health wait earlier in the trace);
`start_service` starts, and waits on the health of, each direct
dependency it starts before starting the requested unit itself — but it
does *not* require those health waits to succeed: the requested unit is
started even when a dependency just reported unhealthy. -/
theorem C1_start_before_healthy (sm : ServiceManager)
    (hacy : AcyclicDeps sm.services) (hclosed : ClosedDeps sm.services)
    (hwf : WFMgr sm.services) (orc : String → Bool) :
    RespectsDeps sm.services (start_all orc sm).evs ∧
    (∀ (m : Mgr) (sid : String), (start_service orc m sid).err = none →
      ∃ devs b, (start_service orc m sid).evs
          = devs ++ [Ev.start sid, Ev.waitH sid b] ∧
        (∀ x, Ev.start x ∈ devs → ∃ c, Ev.waitH x c ∈ devs)) := by
  constructor
  · by_cases hflag : sm.starting_ = true
    · simp only [start_all, hflag, if_true]
      intro pre u post habs
      exact absurd habs.symm (by simp)
    · have hflag2 : sm.starting_ = false := by
        rcases Bool.eq_false_or_eq_true sm.starting_ with h | h
        · exact absurd h hflag
        · exact h
      obtain ⟨htopo, hnd, hkeys, hsub⟩ := start_order_sound sm.services hacy
      have hordmem : ∀ x ∈ start_order sm.services, x ∈ keys sm.services :=
        fun x hx => allIds_subset_keys hclosed x (hsub x hx)
      have hmem0 : ∀ x ∈ start_order sm.services,
          (lookupSvc sm.services x).isSome = true := by
        intro x hx
        obtain ⟨s, hs⟩ := lookup_of_mem_keys (hordmem x hx)
        rw [hs]
        rfl
      have hsat : ∀ u d, depEdge sm.services u d →
          u ∈ start_order sm.services →
          ((∃ s, lookupSvc sm.services d = some s ∧
              (s.state).1 = "running" ∧ healthyBefore sm.services [] d) ∨
           (d ≠ u ∧ ∀ p, p <+: start_order sm.services → u ∈ p → d ∈ p)) := by
        intro u d hud hu
        refine Or.inr ⟨?_, fun p hp hup => htopo u d hud p hp hup⟩
        rintro rfl
        exact hacy d (Relation.TransGen.single hud)
      obtain ⟨K1, _, _, _, _⟩ := startAllGo_sound sm.services orc hwf
        (start_order sm.services) sm.services [] hnd hmem0
        (fun x _ => rfl) hsat
      simp only [start_all, hflag2, Bool.false_eq_true, if_false]
      intro pre u post h d hud
      exact K1 pre u post h d hud
  · intro m sid h
    exact start_service_shape orc m sid h

/-- Witness for C1's amended theorem: a full `start_all` run on `cfg1`
respects dependencies, and a successful `start_service "b"` waits on each
dependency it starts before starting `b`. -/
theorem C1_witness :
    RespectsDeps cfg1 (start_all orcFail ⟨cfg1, false⟩).evs ∧
    (∃ devs b, (start_service (fun _ => true) cfg1 "b").evs
        = devs ++ [Ev.start "b", Ev.waitH "b" b] ∧
      (∀ x, Ev.start x ∈ devs → ∃ c, Ev.waitH x c ∈ devs)) :=
  ⟨(C1_start_before_healthy ⟨cfg1, false⟩ cfg1_acyclic cfg1_closed cfg1_wf
      orcFail).1,
   (C1_start_before_healthy ⟨cfg1, false⟩ cfg1_acyclic cfg1_closed cfg1_wf
      (fun _ => true)).2 cfg1 "b" (by decide)⟩

/-! # Claim C8 -/

/-- C8 counterexample: in `sm8`, unit `a` is running and unit `b` is
stopped.  `change_model` stops everything and then calls `start_all`,
which starts *every* configured unit — including `b`, which was stopped
before the operation: afterwards `b` is `"running"` and a start event for
`b` is in the trace, contradicting "units that were already stopped
before the operation are not started". -/
theorem C8_counterexample :
    (svcB8.state).1 = "stopped" ∧
    Ev.start "b"
      ∈ (change_model models8 (fun _ => true) envOk sm8 none "m1").evs ∧
    ((lookupSvc (change_model models8 (fun _ => true) envOk sm8 none
        "m1").sm.services "b").map (fun s => (s.state).1))
      = some "running" := by
  refine ⟨by decide, by decide, by decide⟩

theorem anyRunningScan_agree : ∀ m : Mgr, DepsAgree m (anyRunningScan m).2 := by
  intro m
  induction m with
  | nil => exact depsAgree_refl []
  | cons e rest ih =>
    obtain ⟨k, s⟩ := e
    simp only [anyRunningScan]
    by_cases hc : s.state.1 = "running" ∨ s.state.1 = "starting"
    · rw [if_pos hc]
      refine ⟨rfl, ?_⟩
      intro x
      rw [lookupSvc_cons, lookupSvc_cons]
      by_cases hk : k = x
      · rw [if_pos hk, if_pos hk]
        simp only [Option.map_some']
        rw [state_snd_depends]
      · rw [if_neg hk, if_neg hk]
    · rw [if_neg hc]
      refine ⟨?_, ?_⟩
      · have hk := ih.1
        unfold keys at hk ⊢
        simp only [List.map_cons]
        rw [← hk]
      · intro x
        rw [lookupSvc_cons, lookupSvc_cons]
        by_cases hk : k = x
        · rw [if_pos hk, if_pos hk]
          simp only [Option.map_some']
          rw [state_snd_depends]
        · rw [if_neg hk, if_neg hk]
          exact ih.2 x

theorem runtimeOf_update {m : Mgr} {sid : String}
    {f : ManagedService → ManagedService}
    (hf : ∀ s, lookupSvc m sid = some s →
      (f s).process = s.process ∧ (f s).state_ = s.state_) :
    ∀ x, runtimeOf (updateSvc m sid f) x = runtimeOf m x := by
  intro x
  unfold runtimeOf
  by_cases hx : x = sid
  · subst hx
    rw [lookup_update_self]
    rcases hl : lookupSvc m x with _ | s
    · rfl
    · simp only [Option.map_some']
      rw [(hf s hl).1, (hf s hl).2]
  · rw [lookup_update_ne m f hx]

theorem apply_vllm_preserves {m : Mgr} {mid gpu : String} {m2 : Mgr}
    (h : apply_model_vllm m mid gpu = Except.ok m2) :
    DepsAgree m m2 ∧ ∀ x, runtimeOf m2 x = runtimeOf m x := by
  unfold apply_model_vllm at h
  rcases hv : lookupSvc m "vllm" with _ | svcv
  · simp only [hv] at h
    injection h with h2
    subst h2
    exact ⟨depsAgree_refl m, fun x => rfl⟩
  · simp only [hv] at h
    rcases h1 : substFlag svcv.command "--model" mid with e | c1
    · simp only [h1] at h
      exact absurd h (by simp)
    · simp only [h1] at h
      rcases h2 : substFlag c1 "--gpu-memory-utilization" gpu with e | c2
      · simp only [h2] at h
        exact absurd h (by simp)
      · simp only [h2] at h
        injection h with h3
        subst h3
        constructor
        · refine depsAgree_update ?_
          intro s hs
          simp only [hv] at hs
          injection hs with hs
          rw [← hs]
        · refine runtimeOf_update ?_
          intro s hs
          simp only [hv] at hs
          injection hs with hs
          rw [← hs]
          exact ⟨rfl, rfl⟩

theorem apply_miotts_preserves {m1 : Mgr} {mid : String} {m2 : Mgr}
    (h : apply_model_miotts m1 mid = Except.ok m2) :
    DepsAgree m1 m2 ∧ ∀ x, runtimeOf m2 x = runtimeOf m1 x := by
  unfold apply_model_miotts at h
  rcases hm : lookupSvc m1 "miotts" with _ | svcm
  · simp only [hm] at h
    injection h with h2
    subst h2
    exact ⟨depsAgree_refl m1, fun x => rfl⟩
  · simp only [hm] at h
    rcases hsf : substFlag svcm.command "--llm-model" mid with e | c
    · simp only [hsf] at h
      exact absurd h (by simp)
    · simp only [hsf] at h
      injection h with h3
      subst h3
      constructor
      · refine depsAgree_update ?_
        intro s hs
        rw [hm] at hs
        injection hs with hs
        rw [← hs]
      · refine runtimeOf_update ?_
        intro s hs
        rw [hm] at hs
        injection hs with hs
        rw [← hs]
        exact ⟨rfl, rfl⟩

theorem apply_model_preserves {m : Mgr} {mid gpu : String} {m2 : Mgr}
    (h : apply_model_to_services m mid gpu = Except.ok m2) :
    DepsAgree m m2 ∧ ∀ x, runtimeOf m2 x = runtimeOf m x := by
  unfold apply_model_to_services at h
  rcases hv : apply_model_vllm m mid gpu with e | m1
  · simp only [hv] at h
    exact absurd h (by simp)
  · simp only [hv] at h
    obtain ⟨ha1, hr1⟩ := apply_vllm_preserves hv
    obtain ⟨ha2, hr2⟩ := apply_miotts_preserves h
    exact ⟨depsAgree_trans ha1 ha2, fun x => (hr2 x).trans (hr1 x)⟩

/-- C8 amended: when some unit is running (or starting), a successful
`change_model` stops every unit, applies the substitution, persists the
new selection — and then restarts *all* configured units via `start_all`,
not only the previously running ones: every configured unit, including
units that were stopped before the operation, ends up started and
`"running"`. -/
theorem C8_change_model_restarts_everything
    (models : List (String × String)) (model : String × String)
    (sm : ServiceManager) (persisted : Option String) (mid : String)
    (env : String → ManagedService.StopEnv)
    (hfind : models.find? (fun e => e.1 = mid) = some model)
    (hacy : AcyclicDeps sm.services) (hclosed : ClosedDeps sm.services)
    (hnd : (keys sm.services).Nodup)
    (hflag : sm.starting_ = false)
    (hrun : (anyRunningScan sm.services).1 = true)
    (henv : ∀ x, (env x).waitCompletes = true)
    (m2 : Mgr)
    (happly : apply_model_to_services
        (stopAllGo env (anyRunningScan sm.services).2
          (start_order (anyRunningScan sm.services).2).reverse).mgr
        mid model.2 = Except.ok m2) :
    (change_model models (fun _ => true) env sm persisted mid).err = none ∧
    (change_model models (fun _ => true) env sm persisted mid).persisted
      = some mid ∧
    (∀ x ∈ keys sm.services, Ev.start x
      ∈ (change_model models (fun _ => true) env sm persisted mid).evs) ∧
    (∀ x ∈ keys sm.services, ∃ s,
      lookupSvc (change_model models (fun _ => true) env sm persisted
        mid).sm.services x = some s ∧ (s.state).1 = "running") := by
  have hagree1 : DepsAgree sm.services (anyRunningScan sm.services).2 :=
    anyRunningScan_agree sm.services
  have hacy1 : AcyclicDeps (anyRunningScan sm.services).2 :=
    depsAgree_acyclic hagree1 hacy
  have hnd1 : (keys (anyRunningScan sm.services).2).Nodup := by
    rw [← hagree1.1]
    exact hnd
  have hclosed1 : ClosedDeps (anyRunningScan sm.services).2 :=
    depsAgree_closed hagree1 hnd1 hclosed
  obtain ⟨_, hndo1, hkeys1, hsub1⟩ :=
    start_order_sound (anyRunningScan sm.services).2 hacy1
  have hordmem1 : ∀ x ∈ start_order (anyRunningScan sm.services).2,
      x ∈ keys (anyRunningScan sm.services).2 :=
    fun x hx => allIds_subset_keys hclosed1 x (hsub1 x hx)
  obtain ⟨hserr, hsevs, hsstop, hsfix, hsagree⟩ := stopAllGo_run env
    (start_order (anyRunningScan sm.services).2).reverse
    (anyRunningScan sm.services).2 (List.nodup_reverse.mpr hndo1)
    (fun x hx => hordmem1 x (List.mem_reverse.mp hx))
  obtain ⟨hagree3, hrt3⟩ := apply_model_preserves happly
  have hkeysScanStop : keys (anyRunningScan sm.services).2
      = keys (stopAllGo env (anyRunningScan sm.services).2
          (start_order (anyRunningScan sm.services).2).reverse).mgr :=
    hsagree.1
  have hkeysEq : keys sm.services = keys m2 := by
    rw [hagree1.1, hkeysScanStop, hagree3.1]
  have hacy2 : AcyclicDeps m2 :=
    depsAgree_acyclic hagree3 (depsAgree_acyclic hsagree hacy1)
  have hnd2 : (keys m2).Nodup := by
    rw [← hkeysEq]
    exact hnd
  have hndStop : (keys (stopAllGo env (anyRunningScan sm.services).2
      (start_order (anyRunningScan sm.services).2).reverse).mgr).Nodup := by
    rw [← hkeysScanStop]
    exact hnd1
  have hclosed2 : ClosedDeps m2 :=
    depsAgree_closed hagree3 hnd2
      (depsAgree_closed hsagree hndStop hclosed1)
  obtain ⟨_, hndo2, hkeys2, hsub2⟩ := start_order_sound m2 hacy2
  have hordmem2 : ∀ x ∈ start_order m2, x ∈ keys m2 :=
    fun x hx => allIds_subset_keys hclosed2 x (hsub2 x hx)
  have hstopped2 : ∀ x ∈ start_order m2, ∃ s, lookupSvc m2 x = some s ∧
      (s.state).1 ≠ "running" ∧ s.procAlive = false := by
    intro x hx
    have hxk2 : x ∈ keys m2 := hordmem2 x hx
    have hxkScan : x ∈ keys (anyRunningScan sm.services).2 := by
      rw [hkeysScanStop, hagree3.1]
      exact hxk2
    have hxord1 : x ∈ (start_order (anyRunningScan sm.services).2).reverse :=
      List.mem_reverse.mpr (hkeys1 x hxkScan)
    obtain ⟨s1, hs1, hstp1, halive1⟩ := hsstop x hxord1
    have hrt := hrt3 x
    unfold runtimeOf at hrt
    rw [hs1] at hrt
    rcases hl2 : lookupSvc m2 x with _ | s2
    · rw [hl2] at hrt
      simp at hrt
    · rw [hl2] at hrt
      simp only [Option.map_some', Option.some.injEq, Prod.mk.injEq] at hrt
      refine ⟨s2, rfl, ?_, ?_⟩
      · apply state_fst_ne_running_of_stopped
        rw [hrt.2, hstp1]
      · rw [procAlive_eq_of_process hrt.1]
        exact halive1 (henv x)
  obtain ⟨hherr, hhevs, hhrun, hhfix, hhagree⟩ := startAllGo_happy
    (start_order m2) m2 hndo2 hstopped2
  have hred : change_model models (fun _ => true) env sm persisted mid
      = ⟨(startAllGo (fun _ => true) m2 (start_order m2)).err,
         ⟨(startAllGo (fun _ => true) m2 (start_order m2)).mgr, false⟩,
         some mid,
         (stopAllGo env (anyRunningScan sm.services).2
           (start_order (anyRunningScan sm.services).2).reverse).evs
         ++ (startAllGo (fun _ => true) m2 (start_order m2)).evs⟩ := by
    simp only [change_model, hfind, hrun, if_true, stop_all, hserr, happly,
      start_all, hflag, Bool.false_eq_true, if_false]
  rw [hred]
  refine ⟨hherr, rfl, ?_, ?_⟩
  · intro x hxk
    have hx2 : x ∈ start_order m2 := hkeys2 x (hkeysEq ▸ hxk)
    refine List.mem_append_right _ ?_
    rw [hhevs]
    exact List.mem_flatMap.mpr ⟨x, hx2, by simp⟩
  · intro x hxk
    have hx2 : x ∈ start_order m2 := hkeys2 x (hkeysEq ▸ hxk)
    exact hhrun x hx2

theorem sm8_lookup_cases {x : String} {s : ManagedService}
    (h : lookupSvc sm8.services x = some s) : s = svcA8 ∨ s = svcB8 := by
  simp only [sm8, lookupSvc] at h
  split_ifs at h
  · exact Or.inl (by injection h with h2; exact h2.symm)
  · exact Or.inr (by injection h with h2; exact h2.symm)

theorem sm8_acyclic : AcyclicDeps sm8.services := by
  intro x hx
  obtain ⟨b, he, _⟩ := Relation.TransGen.head'_iff.mp hx
  obtain ⟨svc, hl, hd⟩ := he
  rcases sm8_lookup_cases hl with rfl | rfl
  · exact absurd hd (List.not_mem_nil b)
  · exact absurd hd (List.not_mem_nil b)

theorem sm8_closed : ClosedDeps sm8.services := by
  intro e he d hd
  rcases List.mem_cons.mp he with rfl | he2
  · exact absurd hd (List.not_mem_nil d)
  · rcases List.mem_cons.mp he2 with rfl | he3
    · exact absurd hd (List.not_mem_nil d)
    · simp at he3

/-- Witness for C8's amended theorem on the concrete manager `sm8`
(`a` running, `b` stopped): a successful `change_model` ends with *both*
units started and running, and persists the selection. -/
theorem C8_witness :
    (change_model models8 (fun _ => true) envOk sm8 none "m1").err = none ∧
    (change_model models8 (fun _ => true) envOk sm8 none "m1").persisted
      = some "m1" ∧
    (∀ x ∈ keys sm8.services, Ev.start x
      ∈ (change_model models8 (fun _ => true) envOk sm8 none "m1").evs) ∧
    (∀ x ∈ keys sm8.services, ∃ s,
      lookupSvc (change_model models8 (fun _ => true) envOk sm8 none
        "m1").sm.services x = some s ∧ (s.state).1 = "running") :=
  C8_change_model_restarts_everything models8 ("m1", "0.9") sm8 none "m1"
    envOk (by decide) sm8_acyclic sm8_closed (by decide) rfl (by decide)
    (fun x => rfl) _ rfl

/-- Witness for C6: a never-started unit (`process = None`) is stopped
twice with no signal either time, and a live unit whose process vanished
before the SIGTERM is still stopped successfully without a signal. -/
theorem C6_witness :
    ((svcB8.stop (envOk "b")).2 = [] ∧
      (svcB8.stop (envOk "b")).1.state_ = "stopped" ∧
      ((svcB8.stop (envOk "b")).1.stop (envOk "b")).2 = [] ∧
      ((svcB8.stop (envOk "b")).1.stop (envOk "b")).1.state_ = "stopped") ∧
    ("SIGTERM" ∉ (svcA8.stop ⟨true, true, 0, false⟩).2 ∧
      (svcA8.stop ⟨true, true, 0, false⟩).1.state_ = "stopped") :=
  ⟨C6_stop_idempotent.1 svcB8 (envOk "b") (envOk "b") (Or.inl rfl),
   C6_stop_idempotent.2 svcA8 ⟨true, true, 0, false⟩ (by decide) rfl⟩
